import Mathlib

/-!
Verification development for the JWT key-rotation and multi-key signing core
of jupyter-k8s-infra.

Shallow embedding conventions:
* Go strings are modelled as `List Char` (Go compares strings byte-wise;
  for the ASCII data handled here, byte order and `Char`-value order agree).
* Go `map[string]X` values are modelled as association lists
  `List (List Char × X)`; well-formedness hypotheses require the key column
  to be duplicate-free, which every Go map satisfies.  Go map iteration
  order is unspecified; all stated theorems are insensitive to the order or
  assume hypotheses (distinct timestamps) under which the outcome is
  order-independent.
* Instants and durations are integers (one unit = one second); `time.Now()`
  becomes an explicit `now : Int` parameter.  JWT numeric dates are
  truncated to seconds by the Go library, so second-granularity integers
  absorb the "modulo timestamp rounding" caveat of the spec.
* Key bytes are `List Nat`.
* HMAC is modelled symbolically: a signature is the tuple of the MAC
  algorithm, the signed header fields, the signed claims and the key
  (the perfect-cryptography idealization: equal inputs give equal MACs,
  distinct inputs give distinct MACs).
-/

deriving instance DecidableEq for Except

namespace JK

/-- Byte list standing for Go `[]byte`. -/
abbrev Bytes := List Nat

/-- Convert a Lean string literal to the `List Char` model of a Go string. -/
def str (s : String) : List Char := s.data

/-! ### Decimal digits and Go string comparison -/

/-- Numeric value of a digit character. -/
def dval (c : Char) : Nat := c.toNat - 48

/-- Whether a character is an ASCII decimal digit. -/
def isDig (c : Char) : Bool := 48 ≤ c.toNat && c.toNat ≤ 57

/-- Whether all characters are ASCII decimal digits. -/
def allDigits (l : List Char) : Bool := l.all isDig

/-- Value of a most-significant-first decimal digit string. -/
def dsVal : List Char → Nat
  | [] => 0
  | c :: cs => dval c * 10 ^ cs.length + dsVal cs

/-- Go byte-wise string comparison `a < b` (`<` on Go strings). -/
def strLtB : List Char → List Char → Bool
  | [], [] => false
  | [], _ :: _ => true
  | _ :: _, [] => false
  | a :: as, b :: bs =>
    if a.toNat < b.toNat then true
    else if b.toNat < a.toNat then false
    else strLtB as bs

/-- Decimal digit character of `n < 10`. -/
def digChar (n : Nat) : Char := Char.ofNat (48 + n)

/-- Fuel-indexed digit expansion; correct whenever `n < 10 ^ fuel`
(structural recursion so that the kernel can evaluate it). -/
def natDigitsF : Nat → Nat → List Char
  | 0, n => [digChar n]
  | fuel + 1, n =>
    if n < 10 then [digChar n]
    else natDigitsF fuel (n / 10) ++ [digChar (n % 10)]

/-- Most-significant-first decimal digits of a natural number
(the output of Go `fmt.Sprintf` with the `d` verb, for non-negative
input).  30 digits of fuel cover every Go `int64` (at most 19 digits). -/
def natDigits (n : Nat) : List Char := natDigitsF 30 n

/-- Decimal rendering of an integer (Go `fmt.Sprintf` with the `d` verb). -/
def intToDec (i : Int) : List Char :=
  if i < 0 then '-' :: natDigits (-i).toNat else natDigits i.toNat

/-- Largest value of Go `int64`. -/
def int64Max : Int := 2 ^ 63 - 1

/-- Model of Go `strconv.ParseInt(s, 10, 64)`: optional sign, at least one
digit, all digits, 64-bit range check; `none` models any returned error. -/
def parseDecInt : List Char → Option Int
  | [] => none
  | c :: rest =>
    if c = '-' then
      if rest.isEmpty || !allDigits rest then none
      else if (dsVal rest : Int) ≤ 2 ^ 63 then some (-(dsVal rest : Int)) else none
    else if c = '+' then
      if rest.isEmpty || !allDigits rest then none
      else if (dsVal rest : Int) ≤ int64Max then some (dsVal rest : Int) else none
    else
      if !allDigits (c :: rest) then none
      else if (dsVal (c :: rest) : Int) ≤ int64Max then some (dsVal (c :: rest) : Int)
      else none

/-! ### Key codec (`BuildKeyName`, `ParseKeyTimestamp`) -/

/-- The fixed name prefix of signing-key entries (`KeyPrefix` in the source). -/
def kpfx : List Char := str "jwt-signing-key-"

/-- Whether a store-entry name carries the signing-key prefix
(`strings.HasPrefix(name, KeyPrefix)`). -/
def hasKeyPfx (n : List Char) : Bool := kpfx.isPrefixOf n

/-- The suffix after the signing-key prefix
(`strings.TrimPrefix(name, KeyPrefix)`, applied after a prefix check). -/
def suffixOf (n : List Char) : List Char := n.drop kpfx.length

/-- `BuildKeyName`: key name for a given timestamp. -/
def buildKeyName (t : Int) : List Char := kpfx ++ intToDec t

/-- Failure causes of `ParseKeyTimestamp` (both are `ErrMalformedKey`-kind). -/
inductive KeyNameErr
  | noPfx
  | badTimestamp
deriving DecidableEq

/-- `ParseKeyTimestamp`: extract the decimal timestamp from a key name. -/
def parseKeyTimestamp (n : List Char) : Except KeyNameErr Int :=
  if hasKeyPfx n then
    match parseDecInt (suffixOf n) with
    | some t => .ok t
    | none => .error .badTimestamp
  else .error .noPfx

/-! ### `ParseSigningKeysFromSecret` -/

/-- Failure values of `ParseSigningKeysFromSecret`, one per `fmt.Errorf`
site in the source: nil data, a prefixed entry whose suffix does not
decode, and no prefixed entries at all. -/
inductive ParseErr
  | noData
  | invalidKeyFormat (name : List Char)
  | noKeys
deriving DecidableEq

/-- Spec error taxonomy: which `ParseErr` values are of the `ErrNoKeys`
kind (the parse saw no usable signing-key entry).  `invalidKeyFormat` is
the `ErrMalformedKey` kind instead. -/
def ParseErr.isNoKeysKind : ParseErr → Bool
  | .noData => true
  | .noKeys => true
  | .invalidKeyFormat _ => false

/-- The entry-iteration loop of `ParseSigningKeysFromSecret`: skips
non-prefixed entries, fails on a prefixed entry whose suffix does not
decode, accumulates `kid ↦ value`, and tracks the latest (strictly
greatest so far, seeded with 0) timestamp and its kid. -/
def parseLoop :
    List (List Char × Bytes) → List (List Char × Bytes) → Int → List Char →
    Except ParseErr (List (List Char × Bytes) × Int × List Char)
  | [], acc, latestTs, latestKid => .ok (acc, latestTs, latestKid)
  | (name, value) :: rest, acc, latestTs, latestKid =>
    if hasKeyPfx name then
      match parseKeyTimestamp name with
      | .error _ => .error (.invalidKeyFormat name)
      | .ok ts =>
        if latestTs < ts then
          parseLoop rest (acc ++ [(suffixOf name, value)]) ts (suffixOf name)
        else
          parseLoop rest (acc ++ [(suffixOf name, value)]) latestTs latestKid
    else parseLoop rest acc latestTs latestKid

/-- `ParseSigningKeysFromSecret`: the secret's `Data` field is `none` for a
nil map.  Returns the kid-to-key map together with the latest kid. -/
def parseSigningKeysFromSecret (data : Option (List (List Char × Bytes))) :
    Except ParseErr (List (List Char × Bytes) × List Char) :=
  match data with
  | none => .error .noData
  | some d =>
    match parseLoop d [] 0 [] with
    | .error e => .error e
    | .ok (m, _, latestKid) =>
      if m.isEmpty then .error .noKeys else .ok (m, latestKid)

/-! ### Association-list lookup (Go map indexing) -/

/-- Association-list lookup modelling Go map indexing (first hit). -/
def look {β : Type} (k : List Char) : List (List Char × β) → Option β
  | [] => none
  | (a, b) :: rest => if a = k then some b else look k rest

/-! ### Signer data model (`StandardSigner`, `Claims`) -/

/-- The claims payload carried by a token: registered claims plus the
custom claims of the source's `Claims` struct.  Timestamps are integer
seconds (the Go library truncates numeric dates to seconds). -/
structure Claims where
  expiresAt : Int
  issuedAt : Int
  notBefore : Int
  issuer : String
  audience : List String
  subject : String
  user : String
  groups : List String
  uid : String
  extra : List (String × List String)
  path : String
  domain : String
  tokenType : String
  skipRefresh : Bool
deriving DecidableEq

/-- Symbolic HMAC signature: the MAC value is determined by (and
determines) the algorithm, the signed header fields, the signed claims
and the key. -/
structure Sig where
  alg : String
  kid : Option (List Char)
  claims : Claims
  key : Bytes
deriving DecidableEq

/-- A parsed JWS token: header fields `alg` and `kid`, claims, signature.
`kid := none` models a header without a `kid` entry. -/
structure Token where
  alg : String
  kid : Option (List Char)
  claims : Claims
  sig : Sig
deriving DecidableEq

/-- In-memory state of `StandardSigner` (the mutex is not modelled; all
public operations take it and are modelled as atomic state transformers). -/
structure Signer where
  signingKeys : List (List Char × Bytes)
  keyAddedTimes : List (List Char × Int)
  latestKid : List Char
  newKeyUseDelay : Int
  issuer : String
  audience : String
  expiration : Int
deriving DecidableEq

/-- `NewStandardSigner`. -/
def newStandardSigner (issuer audience : String) (expiration newKeyUseDelay : Int) : Signer :=
  { signingKeys := [], keyAddedTimes := [], latestKid := []
    newKeyUseDelay := newKeyUseDelay, issuer := issuer, audience := audience
    expiration := expiration }

/-- Well-formedness of a Signer state, as maintained by every reachable
state: the key columns of both maps are duplicate-free (Go maps), the two
domains agree (reconciled by `UpdateKeys`), and no kid is the empty
string (kids produced by the parser are decimal suffixes that decoded). -/
def SignerWF (s : Signer) : Prop :=
  (s.signingKeys.map Prod.fst).Nodup ∧
  (s.keyAddedTimes.map Prod.fst).Nodup ∧
  (∀ k ∈ s.keyAddedTimes.map Prod.fst, k ∈ s.signingKeys.map Prod.fst) ∧
  (∀ k ∈ s.signingKeys.map Prod.fst, k ∈ s.keyAddedTimes.map Prod.fst) ∧
  (∀ k ∈ s.keyAddedTimes.map Prod.fst, k ≠ [])

instance (s : Signer) : Decidable (SignerWF s) := by
  unfold SignerWF; infer_instance

/-! ### Usable-kid selection (`getLatestKidAndKeyWithCoolOff`) -/

/-- One step of the usable-kid scan: Go
`if timeSinceAdded >= s.newKeyUseDelay` then
`if usableKid == "" || kid > usableKid`. -/
def coolStep (delay now : Int) (acc : List Char) (p : List Char × Int) : List Char :=
  if delay ≤ now - p.2 then
    (if acc.isEmpty || strLtB acc p.1 then p.1 else acc)
  else acc

/-- The `usableKid` computed by the loop in `getLatestKidAndKeyWithCoolOff`. -/
def usableKidOf (s : Signer) (now : Int) : List Char :=
  s.keyAddedTimes.foldl (coolStep s.newKeyUseDelay now) []

/-- `getLatestKidAndKeyWithCoolOff`: empty kid and no key when every key is
still in cool-off; otherwise the chosen kid and the (possibly absent) key
mapped to it. -/
def getLatestKidAndKeyWithCoolOff (s : Signer) (now : Int) :
    List Char × Option Bytes :=
  if (usableKidOf s now).isEmpty then ([], none)
  else (usableKidOf s now, look (usableKidOf s now) s.signingKeys)

/-- The kids of `l` that have passed cool-off at `now` (in list order);
a specification-side view of the scan's candidate set. -/
def usableOf (delay now : Int) (l : List (List Char × Int)) : List (List Char) :=
  l.filterMap (fun p => if delay ≤ now - p.2 then some p.1 else none)

/-- The kids that have passed cool-off at `now`, for a Signer state. -/
def usableList (s : Signer) (now : Int) : List (List Char) :=
  usableOf s.newKeyUseDelay now s.keyAddedTimes

/-! ### Token generation and validation -/

/-- The only failure of `GenerateToken`: "no signing key available beyond
cooloff period" (the spec's `ErrNoUsableKey` kind). -/
inductive GenErr
  | noUsableKey
deriving DecidableEq

/-- The claims built by `GenerateToken`: registered claims
(`exp = now + expiration`, `iat = nbf = now`, configured issuer and
single-element audience) plus the custom claims. -/
def genClaims (s : Signer) (now : Int) (username : String)
    (groups : List String) (uid : String) (extra : List (String × List String))
    (path domain tokenType : String) : Claims :=
  { expiresAt := now + s.expiration, issuedAt := now, notBefore := now
    issuer := s.issuer, audience := [s.audience], subject := username
    user := username, groups := groups, uid := uid, extra := extra
    path := path, domain := domain, tokenType := tokenType
    skipRefresh := false }

/-- The token emitted by a successful `GenerateToken`: HS384, chosen kid in
the header, HMAC over header and claims with the chosen key. -/
def genTok (s : Signer) (now : Int) (usableKid : List Char) (signingKey : Bytes)
    (username : String) (groups : List String) (uid : String)
    (extra : List (String × List String)) (path domain tokenType : String) : Token :=
  let c := genClaims s now username groups uid extra path domain tokenType
  { alg := "HS384", kid := some usableKid, claims := c
    sig := { alg := "HS384", kid := some usableKid, claims := c, key := signingKey } }

/-- `GenerateToken`: pick the usable kid, build the claims, sign with
HS384 and emit the kid in the header.  `now` stands for the single
`time.Now()` instant of the call. -/
def generateToken (s : Signer) (now : Int) (username : String)
    (groups : List String) (uid : String) (extra : List (String × List String))
    (path domain tokenType : String) : Except GenErr Token :=
  match getLatestKidAndKeyWithCoolOff s now with
  | (usableKid, some signingKey) =>
    if usableKid.isEmpty then .error .noUsableKey
    else .ok (genTok s now usableKid signingKey username groups uid extra path domain tokenType)
  | (_, none) => .error .noUsableKey

/-- Keyfunc failure causes inside `ValidateToken`, one per `fmt.Errorf`
site (the first two are unreachable once the parser's valid-methods check
has pinned the algorithm to HS384). -/
inductive KeyfuncErr
  | unexpectedMethod
  | unexpectedAlg
  | missingKid
  | unknownKid (kid : List Char)
deriving DecidableEq

/-- Cause recorded inside the `ErrInvalidToken` fallback wrap
(`fmt.Errorf` joining `ErrInvalidToken` with the library error). -/
inductive InvalidTokenCause
  | algUnavailable
  | keyfunc (e : KeyfuncErr)
  | claims
deriving DecidableEq

/-- Errors returned by `ValidateToken`.  `invalidClaims` mirrors the
claims-type assertion failure branch, which is unreachable for this
parser configuration but part of the source's taxonomy. -/
inductive VErr
  | tokenExpired
  | invalidSignature
  | invalidToken (cause : InvalidTokenCause)
  | invalidClaims
deriving DecidableEq

/-- The sentinel error kinds of the jwt package, i.e. what a caller of
`ValidateToken` can distinguish with `errors.Is`. -/
inductive Sentinel
  | errTokenExpired
  | errInvalidSignature
  | errInvalidToken
  | errInvalidClaims
deriving DecidableEq

/-- Sentinel kind of each `ValidateToken` error value: the fallback wrap
`fmt.Errorf` with `ErrInvalidToken` matches `ErrInvalidToken` under
`errors.Is`, whatever its recorded cause. -/
def VErr.sentinel : VErr → Sentinel
  | .tokenExpired => .errTokenExpired
  | .invalidSignature => .errInvalidSignature
  | .invalidToken _ => .errInvalidToken
  | .invalidClaims => .errInvalidClaims

/-- Algorithm names registered in the jwt library (its packaged signing
methods).  A header `alg` outside this list makes `ParseUnverified` fail
with `ErrTokenUnverifiable`. -/
def knownAlgs : List String :=
  ["HS256", "HS384", "HS512", "RS256", "RS384", "RS512",
   "ES256", "ES384", "ES512", "PS256", "PS384", "PS512", "EdDSA", "none"]

/-- The HMAC family (`SigningMethodHMAC` instances). -/
def hmacAlgs : List String := ["HS256", "HS384", "HS512"]

/-- Claim-validation leeway: `jwt5.WithLeeway(5 * time.Second)`. -/
def leeway : Int := 5

/-- `ValidateToken`, following the jwt v5 parse pipeline with this
configuration: algorithm availability (`ParseUnverified`), the
`WithValidMethods(["HS384"])` check (an `ErrTokenSignatureInvalid`, hence
mapped to `ErrInvalidSignature`), the keyfunc (HMAC check, HS384 check,
kid extraction, key lookup — keyfunc failures are `ErrTokenUnverifiable`
and land in the `ErrInvalidToken` fallback wrap), signature verification,
then claim validation (expiry first in the source's `errors.Is` mapping;
not-before, issuer and audience failures land in the fallback wrap). -/
def validateToken (s : Signer) (now : Int) (tok : Token) : Except VErr Claims :=
  if tok.alg ∉ knownAlgs then .error (.invalidToken .algUnavailable)
  else if tok.alg ≠ "HS384" then .error .invalidSignature
  else if tok.alg ∉ hmacAlgs then .error (.invalidToken (.keyfunc .unexpectedMethod))
  else if tok.alg ≠ "HS384" then .error (.invalidToken (.keyfunc .unexpectedAlg))
  else
    match tok.kid with
    | none => .error (.invalidToken (.keyfunc .missingKid))
    | some kid =>
      if kid.isEmpty then .error (.invalidToken (.keyfunc .missingKid))
      else
        match look kid s.signingKeys with
        | none => .error (.invalidToken (.keyfunc (.unknownKid kid)))
        | some key =>
          if tok.sig ≠ ({ alg := tok.alg, kid := tok.kid, claims := tok.claims, key := key } : Sig) then
            .error .invalidSignature
          else if ¬ now < tok.claims.expiresAt + leeway then .error .tokenExpired
          else if ¬ (tok.claims.notBefore ≤ now + leeway ∧
                     (s.issuer = "" ∨ tok.claims.issuer = s.issuer) ∧
                     (s.audience = "" ∨ s.audience ∈ tok.claims.audience)) then
            .error (.invalidToken .claims)
          else .ok tok.claims

/-! ### `UpdateKeys` -/

/-- Failures of `UpdateKeys`: empty key map, or `latestKid` not in it. -/
inductive UpdateErr
  | emptyKeys
  | latestKidNotFound
deriving DecidableEq

/-- `UpdateKeys`: atomically replace the key set, carrying the previous
`AddedAt` stamp of every kid already known and stamping new kids with
`now`. -/
def updateKeys (s : Signer) (keys : List (List Char × Bytes))
    (latest : List Char) (now : Int) : Except UpdateErr Signer :=
  if keys.isEmpty then .error .emptyKeys
  else if (look latest keys).isNone then .error .latestKidNotFound
  else
    .ok { s with
          signingKeys := keys
          keyAddedTimes := keys.map (fun p =>
            (p.1, match look p.1 s.keyAddedTimes with
                  | some oldTime => oldTime
                  | none => now))
          latestKid := latest }

/-! ### Rotator (`RotateSecret`) -/

/-- A parsed signing-key entry of the store record (`keyEntry`). -/
structure KeyEntry where
  name : List Char
  ts : Int
  value : Bytes
deriving DecidableEq

/-- Ordering used by the rotator's sort (ascending timestamp). -/
def entLE (a b : KeyEntry) : Prop := a.ts ≤ b.ts

instance : DecidableRel entLE := fun a b => Int.decLe a.ts b.ts

instance : IsTotal KeyEntry entLE := ⟨fun a b => Int.le_total a.ts b.ts⟩

instance : IsTrans KeyEntry entLE := ⟨fun _ _ _ h1 h2 => Int.le_trans h1 h2⟩

/-- The well-formed signing-key entries of a record: prefixed entries whose
suffix decodes; malformed prefixed entries and foreign entries are
skipped (the rotator's skip-with-warning policy). -/
def parsedKeys (data : List (List Char × Bytes)) : List KeyEntry :=
  data.filterMap (fun p =>
    if hasKeyPfx p.1 then
      match parseKeyTimestamp p.1 with
      | .ok ts => some ⟨p.1, ts, p.2⟩
      | .error _ => none
    else none)

/-- Failures of `RotateSecret` (store fetch/update are modelled as pure). -/
inductive RotErr
  | invalidNumberOfKeys
  | clockCollision
deriving DecidableEq

/-- The `keys` slice of `RotateSecret` after the new key entry is appended
and re-sorted by ascending timestamp (the first sort happens before the
append, the second after; both are modelled by insertion sort — Go's
`sort.Slice` leaves the order of equal timestamps unspecified, and the
retention theorems assume distinct timestamps, where every correct sort
agrees). -/
def rotKeysAll (data : List (List Char × Bytes)) (now : Int) (newKey : Bytes) :
    List KeyEntry :=
  List.insertionSort entLE
    (List.insertionSort entLE (parsedKeys data) ++ [⟨buildKeyName now, now, newKey⟩])

/-- The names deleted from the record by `RotateSecret`'s pruning step:
the oldest entries beyond `numberOfKeys` in the sorted slice. -/
def rotRemoveNames (data : List (List Char × Bytes)) (numberOfKeys now : Int)
    (newKey : Bytes) : List (List Char) :=
  ((rotKeysAll data now newKey).take
    ((rotKeysAll data now newKey).length - numberOfKeys.toNat)).map KeyEntry.name

/-- `RotateSecret` on a fetched record: parse the valid entries (skipping
malformed prefixed entries with a warning), refuse a clock collision,
append the freshly generated key, and prune the oldest valid entries
beyond `numberOfKeys` from the record.  `newKey` stands for the bytes
drawn from the random source; `now` for `time.Now().UTC().Unix()`. -/
def rotateSecret (data : List (List Char × Bytes)) (numberOfKeys : Int)
    (now : Int) (newKey : Bytes) : Except RotErr (List (List Char × Bytes)) :=
  if numberOfKeys < 1 then .error .invalidNumberOfKeys
  else if (List.insertionSort entLE (parsedKeys data)).any
      (fun kk => kk.name = buildKeyName now) then .error .clockCollision
  else if numberOfKeys < ((rotKeysAll data now newKey).length : Int) then
    .ok ((data ++ [(buildKeyName now, newKey)]).filter
      (fun p => decide (p.1 ∉ rotRemoveNames data numberOfKeys now newKey)))
  else .ok (data ++ [(buildKeyName now, newKey)])

/-! ### Specification-side views and concrete fixtures -/

/-- The kid-to-key pairs accumulated by the parse loop, in entry order:
prefixed entries only, keyed by their suffix; a characterization of the
loop's accumulator used in the theorems below. -/
def kvOf (l : List (List Char × Bytes)) : List (List Char × Bytes) :=
  l.filterMap (fun p => if hasKeyPfx p.1 then some (suffixOf p.1, p.2) else none)

/-- Fixture: a signer whose only key (kid `1000`, added at instant 0) is
still inside the 10-second cool-off at instant 0. -/
def sCoolC1 : Signer :=
  { signingKeys := [(str "1000", [65])], keyAddedTimes := [(str "1000", 0)]
    latestKid := str "1000", newKeyUseDelay := 10
    issuer := "iss", audience := "aud", expiration := 3600 }

/-- Fixture: a signer holding kids `9` and `10`, both far beyond cool-off. -/
def s910 : Signer :=
  { signingKeys := [(str "9", [1]), (str "10", [2])]
    keyAddedTimes := [(str "9", 0), (str "10", 0)]
    latestKid := str "10", newKeyUseDelay := 0
    issuer := "iss", audience := "aud", expiration := 3600 }

/-- Fixture: a one-key signer whose key is out of cool-off at instant 10. -/
def sRT : Signer :=
  { signingKeys := [(str "1000", [65, 66])], keyAddedTimes := [(str "1000", 0)]
    latestKid := str "1000", newKeyUseDelay := 5
    issuer := "iss", audience := "aud", expiration := 3600 }

/-- Fixture: a forged token over `sRT`'s genuine key bytes with an
unregistered algorithm name in the header. -/
def tokFoo : Token :=
  { alg := "FOO", kid := some (str "1000")
    claims := genClaims sRT 10 "u" [] "" [] "" "" "session"
    sig := { alg := "FOO", kid := some (str "1000")
             claims := genClaims sRT 10 "u" [] "" [] "" "" "session", key := [65, 66] } }

/-- Fixture: a forged token over `sRT`'s genuine key bytes declaring
HS256 in the header. -/
def tokHs256 : Token :=
  { alg := "HS256", kid := some (str "1000")
    claims := genClaims sRT 10 "u" [] "" [] "" "" "session"
    sig := { alg := "HS256", kid := some (str "1000")
             claims := genClaims sRT 10 "u" [] "" [] "" "" "session", key := [65, 66] } }

/-- Fixture: a well-formed HS384 token whose header kid `9999` is not in
`sRT`'s key set (properly signed under its own key). -/
def tokUnknown : Token :=
  { alg := "HS384", kid := some (str "9999")
    claims := genClaims sRT 10 "u" [] "" [] "" "" "session"
    sig := { alg := "HS384", kid := some (str "9999")
             claims := genClaims sRT 10 "u" [] "" [] "" "" "session", key := [9, 9] } }

/-- Fixture: a store record holding one valid signing-key entry whose
timestamp 9000 lies in the future of the rotation instant 1000. -/
def dataC6 : List (List Char × Bytes) := [(str "jwt-signing-key-9000", [7])]

/-- Fixture: a store record with one valid entry at timestamp 5. -/
def dataC6w : List (List Char × Bytes) := [(str "jwt-signing-key-5", [1])]

/-- Fixture: update payload with a carried-over kid and a new kid. -/
def keysC7 : List (List Char × Bytes) := [(str "1000", [65]), (str "2000", [66])]

/-- Fixture: signer state before the `keysC7` update (kid `1000` added at 3). -/
def sC7 : Signer :=
  { signingKeys := [(str "1000", [65])], keyAddedTimes := [(str "1000", 3)]
    latestKid := str "1000", newKeyUseDelay := 5
    issuer := "iss", audience := "aud", expiration := 3600 }

/-- Fixture: the signer state after updating `sC7` with `keysC7`
(kid `1000` keeps its stamp 3; kid `2000` is stamped with the call
instant 50). -/
def s2C7 : Signer :=
  { sC7 with
    signingKeys := keysC7
    keyAddedTimes := [(str "1000", 3), (str "2000", 50)]
    latestKid := str "2000" }

/-- Fixture: a record whose only signing-key entry maps to 4 bytes. -/
def dataC8 : List (List Char × Bytes) :=
  [(str "jwt-signing-key-1000", [107, 101, 121, 49])]

/-- Fixture: the signer state after admitting the 4-byte key of `dataC8`. -/
def s2C8 : Signer :=
  { newStandardSigner "iss" "aud" 3600 5 with
    signingKeys := [(str "1000", [107, 101, 121, 49])]
    keyAddedTimes := [(str "1000", 0)]
    latestKid := str "1000" }

/-- Fixture: a record mixing one valid signing-key entry with foreign data. -/
def dataC9 : List (List Char × Bytes) :=
  [(str "jwt-signing-key-1000", [1]), (str "other-data", [9])]

/-- Fixture: a record whose only signing-key entry has timestamp 0. -/
def dataC10 : List (List Char × Bytes) := [(str "jwt-signing-key-0", [1])]

/-! ### Lookup lemmas -/

theorem look_nil {β : Type} {k : List Char} : look k ([] : List (List Char × β)) = none := rfl

theorem look_cons {β : Type} {k a : List Char} {b : β} {rest : List (List Char × β)} :
    look k ((a, b) :: rest) = if a = k then some b else look k rest := rfl

theorem look_eq_some_mem {β : Type} {k : List Char} {v : β} :
    ∀ {l : List (List Char × β)}, look k l = some v → (k, v) ∈ l
  | [], h => by rw [look_nil] at h; cases h
  | (a, b) :: rest, h => by
    by_cases hak : a = k
    · subst hak
      rw [look_cons, if_pos rfl] at h
      injection h with h
      subst h
      exact List.mem_cons_self _ _
    · rw [look, if_neg hak] at h
      exact List.mem_cons_of_mem _ (look_eq_some_mem h)

theorem look_mem_of_nodup {β : Type} :
    ∀ {l : List (List Char × β)}, (l.map Prod.fst).Nodup →
      ∀ {k : List Char} {v : β}, (k, v) ∈ l → look k l = some v
  | [], _, _, _, hmem => by cases hmem
  | (a, b) :: rest, hnd, k, v, hmem => by
    have hnd2 := List.nodup_cons.mp hnd
    rcases List.mem_cons.mp hmem with heq | hrest
    · injection heq with h1 h2
      subst h1; subst h2
      rw [look_cons, if_pos rfl]
    · have hak : a ≠ k := by
        intro h
        subst h
        exact hnd2.1 (List.mem_map.mpr ⟨(a, v), hrest, rfl⟩)
      rw [look_cons, if_neg hak]
      exact look_mem_of_nodup hnd2.2 hrest

theorem look_eq_none_iff {β : Type} {k : List Char} {l : List (List Char × β)} :
    look k l = none ↔ k ∉ l.map Prod.fst := by
  induction l with
  | nil =>
    exact iff_of_true look_nil (List.not_mem_nil k)
  | cons p rest ih =>
    obtain ⟨a, b⟩ := p
    by_cases hak : a = k
    · subst hak
      apply iff_of_false
      · rw [look_cons, if_pos rfl]
        exact fun h => Option.noConfusion h
      · exact fun hnot => hnot (List.mem_cons_self _ _)
    · have hka : k ≠ a := fun h => hak h.symm
      rw [look_cons, if_neg hak, ih]
      constructor
      · intro h hmem
        rcases List.mem_cons.mp hmem with h1 | h2
        · exact hka h1
        · exact h h2
      · exact fun h hm => h (List.mem_cons_of_mem _ hm)

theorem look_isSome_iff {β : Type} {k : List Char} {l : List (List Char × β)} :
    (look k l).isSome = true ↔ k ∈ l.map Prod.fst := by
  rcases h : look k l with _ | v
  · apply iff_of_false
    · exact fun hh => Bool.noConfusion hh
    · exact look_eq_none_iff.mp h
  · exact iff_of_true rfl (List.mem_map.mpr ⟨(k, v), look_eq_some_mem h, rfl⟩)

theorem look_map_snd {β γ : Type} (f : List Char → γ) (k : List Char) :
    ∀ (l : List (List Char × β)),
      look k (l.map fun p => (p.1, f p.1)) = (look k l).map (fun _ => f k)
  | [] => rfl
  | (a, b) :: rest => by
    by_cases hak : a = k
    · subst hak
      simp [look_cons]
    · simp only [List.map_cons, look_cons, if_neg hak]
      exact look_map_snd f k rest

/-! ### Go string-order lemmas -/

theorem char_toNat_inj {c d : Char} (h : c.toNat = d.toNat) : c = d :=
  Char.ext (UInt32.ext h)

theorem strLtB_nil_right : ∀ a, strLtB a [] = false
  | [] => rfl
  | _ :: _ => rfl

theorem strLtB_irrefl : ∀ a, strLtB a a = false
  | [] => rfl
  | c :: cs => by simp [strLtB, strLtB_irrefl cs]

theorem strLtB_false_iff : ∀ a b, strLtB a b = false ↔ (a = b ∨ strLtB b a = true)
  | [], [] => by simp [strLtB]
  | [], _ :: _ => by simp [strLtB]
  | _ :: _, [] => by simp [strLtB]
  | a :: as, b :: bs => by
    by_cases h1 : a.toNat < b.toNat
    · have hne : a ≠ b := fun h => by subst h; omega
      have h2 : ¬ b.toNat < a.toNat := by omega
      simp [strLtB, h1, h2, hne]
    · by_cases h2 : b.toNat < a.toNat
      · have hne : a ≠ b := fun h => by subst h; omega
        simp [strLtB, h1, h2]
      · have hab : a = b := char_toNat_inj (by omega)
        subst hab
        simp [strLtB, h1, strLtB_false_iff as bs]

/-! ### Decimal-digit lemmas -/

theorem digChar_toNat {n : Nat} (h : n < 10) : (digChar n).toNat = 48 + n := by
  interval_cases n <;> decide

theorem isDig_digChar {n : Nat} (h : n < 10) : isDig (digChar n) = true := by
  interval_cases n <;> decide

theorem dval_digChar {n : Nat} (h : n < 10) : dval (digChar n) = n := by
  interval_cases n <;> decide

theorem dsVal_append_one (l : List Char) (c : Char) :
    dsVal (l ++ [c]) = 10 * dsVal l + dval c := by
  induction l with
  | nil => simp [dsVal]
  | cons d ds ih =>
    have hlen : (ds ++ [c]).length = ds.length + 1 := by
      rw [List.length_append, List.length_singleton]
    calc dsVal ((d :: ds) ++ [c])
        = dval d * 10 ^ (ds ++ [c]).length + dsVal (ds ++ [c]) := rfl
      _ = dval d * 10 ^ (ds.length + 1) + (10 * dsVal ds + dval c) := by rw [hlen, ih]
      _ = 10 * (dval d * 10 ^ ds.length + dsVal ds) + dval c := by rw [pow_succ]; ring
      _ = 10 * dsVal (d :: ds) + dval c := rfl

theorem allDigits_cons {c : Char} {cs : List Char} :
    allDigits (c :: cs) = (isDig c && allDigits cs) := by
  simp [allDigits]

theorem allDigits_append_one {l : List Char} {c : Char}
    (hl : allDigits l = true) (hc : isDig c = true) :
    allDigits (l ++ [c]) = true := by
  simp only [allDigits, List.all_append] at *
  simp [hl, hc]

theorem isDig_bounds {c : Char} (h : isDig c = true) :
    48 ≤ c.toNat ∧ c.toNat ≤ 57 := by
  unfold isDig at h
  rw [Bool.and_eq_true] at h
  simp only [decide_eq_true_eq] at h
  exact h

theorem dval_le_of_isDig {c : Char} (h : isDig c = true) : dval c ≤ 9 := by
  unfold isDig at h
  unfold dval
  simp only [Bool.and_eq_true, decide_eq_true_eq] at h
  omega

theorem dsVal_lt {l : List Char} (h : allDigits l = true) :
    dsVal l < 10 ^ l.length := by
  induction l with
  | nil => simp [dsVal]
  | cons c cs ih =>
    rw [allDigits_cons, Bool.and_eq_true] at h
    have h1 := dval_le_of_isDig h.1
    have h2 := ih h.2
    calc dval c * 10 ^ cs.length + dsVal cs
        < dval c * 10 ^ cs.length + 10 ^ cs.length := by omega
      _ = (dval c + 1) * 10 ^ cs.length := by ring
      _ ≤ 10 * 10 ^ cs.length := Nat.mul_le_mul_right _ (by omega)
      _ = 10 ^ (c :: cs).length := by rw [List.length_cons, pow_succ]; ring

theorem natDigitsF_spec : ∀ (fuel n : Nat), n < 10 ^ fuel →
    allDigits (natDigitsF fuel n) = true ∧ dsVal (natDigitsF fuel n) = n
  | 0, n, h => by
    have hn : n = 0 := by simpa using h
    subst hn
    exact ⟨by decide, by decide⟩
  | fuel + 1, n, h => by
    by_cases h10 : n < 10
    · constructor
      · simp only [natDigitsF, if_pos h10, allDigits_cons, isDig_digChar h10]
        decide
      · simp [natDigitsF, if_pos h10, dsVal, dval_digChar h10]
    · have hdiv : n / 10 < 10 ^ fuel := by
        rw [Nat.div_lt_iff_lt_mul (by omega : 0 < 10)]
        calc n < 10 ^ (fuel + 1) := h
          _ = 10 ^ fuel * 10 := by rw [pow_succ]
      obtain ⟨ha, hv⟩ := natDigitsF_spec fuel (n / 10) hdiv
      have hmod : n % 10 < 10 := Nat.mod_lt _ (by omega)
      constructor
      · simp only [natDigitsF, if_neg h10]
        exact allDigits_append_one ha (isDig_digChar hmod)
      · simp only [natDigitsF, if_neg h10]
        rw [dsVal_append_one, hv, dval_digChar hmod]
        omega

theorem strLtB_trans : ∀ a b c, strLtB a b = true → strLtB b c = true → strLtB a c = true
  | _, [], _, hab, _ => by rw [strLtB_nil_right] at hab; cases hab
  | _, _, [], _, hbc => by rw [strLtB_nil_right] at hbc; cases hbc
  | [], _ :: _, _ :: _, _, _ => rfl
  | a :: as, b :: bs, c :: cs, hab, hbc => by
    simp only [strLtB] at hab hbc ⊢
    by_cases h1 : a.toNat < b.toNat
    · by_cases h2 : b.toNat < c.toNat
      · simp [show a.toNat < c.toNat by omega]
      · have h3 : ¬ c.toNat < b.toNat := by
          intro h
          simp [h2, h] at hbc
        have hbceq : b = c := char_toNat_inj (by omega)
        subst hbceq
        simp [h1]
    · have h4 : ¬ b.toNat < a.toNat := by
        intro h
        simp [h1, h] at hab
      have habeq : a = b := char_toNat_inj (by omega)
      subst habeq
      simp only [if_neg h1, if_neg h4] at hab
      by_cases h2 : a.toNat < c.toNat
      · simp [h2]
      · have h5 : ¬ c.toNat < a.toNat := by
          intro h
          simp [h2, h] at hbc
        simp only [if_neg h2, if_neg h5] at hbc ⊢
        exact strLtB_trans as bs cs hab hbc

theorem natDigitsF_ne_nil (fuel n : Nat) : natDigitsF fuel n ≠ [] := by
  cases fuel with
  | zero => exact fun h => List.noConfusion h
  | succ fuel =>
    by_cases h10 : n < 10
    · simp [natDigitsF, if_pos h10]
    · simp only [natDigitsF, if_neg h10]
      exact fun h => by simp at h

theorem parseDecInt_natDigits {n : Nat} (h : (n : Int) ≤ int64Max) :
    parseDecInt (natDigits n) = some (n : Int) := by
  have hn : n < 10 ^ 30 := by
    have h1 : (n : Int) ≤ 2 ^ 63 - 1 := h
    have h3 : (n : Int) < 10 ^ 30 := lt_of_le_of_lt h1 (by norm_num)
    exact_mod_cast h3
  obtain ⟨ha, hv⟩ := natDigitsF_spec 30 n hn
  rcases hcs : natDigits n with _ | ⟨c, rest⟩
  · exact absurd hcs (natDigitsF_ne_nil 30 n)
  · unfold natDigits at hcs
    rw [hcs] at ha hv
    have hcdig : isDig c = true := by
      rw [allDigits_cons, Bool.and_eq_true] at ha
      exact ha.1
    have hcm : c ≠ '-' := by
      intro hc
      subst hc
      exact absurd hcdig (by decide)
    have hcp : c ≠ '+' := by
      intro hc
      subst hc
      exact absurd hcdig (by decide)
    rw [allDigits_cons, Bool.and_eq_true] at ha
    have ha2 : allDigits (c :: rest) = true := by
      rw [allDigits_cons, Bool.and_eq_true]
      exact ha
    simp only [parseDecInt]
    rw [if_neg hcm, if_neg hcp, if_neg (by rw [ha2]; decide),
      if_pos (by rw [hv]; exact h), hv]

theorem parseKeyTimestamp_build {t : Int} (h0 : 0 ≤ t) (hmax : t ≤ int64Max) :
    parseKeyTimestamp (buildKeyName t) = .ok t := by
  have hpfx : hasKeyPfx (buildKeyName t) = true := by
    unfold hasKeyPfx buildKeyName
    exact List.isPrefixOf_iff_prefix.mpr (List.prefix_append _ _)
  have hsuf : suffixOf (buildKeyName t) = intToDec t := by
    unfold suffixOf buildKeyName
    exact List.drop_left _ _
  have htn : ((t.toNat : Nat) : Int) = t := Int.toNat_of_nonneg h0
  unfold parseKeyTimestamp
  rw [if_pos hpfx, hsuf]
  unfold intToDec
  rw [if_neg (by omega : ¬ t < 0), parseDecInt_natDigits (by rw [htn]; exact hmax)]
  rw [htn]

theorem hasKeyPfx_build (t : Int) : hasKeyPfx (buildKeyName t) = true := by
  unfold hasKeyPfx buildKeyName
  exact List.isPrefixOf_iff_prefix.mpr (List.prefix_append _ _)

/-- Same-length all-digit strings compare byte-wise exactly as their
numeric values do (one direction; the other follows by totality). -/
theorem strLtB_of_dsVal_lt : ∀ (a b : List Char), allDigits a = true →
    allDigits b = true → a.length = b.length → dsVal a < dsVal b →
    strLtB a b = true
  | [], [], _, _, _, hv => by simp [dsVal] at hv
  | [], _ :: _, _, _, hlen, _ => by simp at hlen
  | _ :: _, [], _, _, hlen, _ => by simp at hlen
  | a :: as, b :: bs, ha, hb, hlen, hv => by
    rw [allDigits_cons, Bool.and_eq_true] at ha hb
    have hlen2 : as.length = bs.length := by
      simpa using hlen
    by_cases h1 : a.toNat < b.toNat
    · simp [strLtB, h1]
    · by_cases h2 : b.toNat < a.toNat
      · -- then dsVal (b :: bs) < dsVal (a :: as), contradicting hv
        exfalso
        have hba := isDig_bounds hb.1
        have haa := isDig_bounds ha.1
        have hda : dval b < dval a := by
          unfold dval
          omega
        have hbnd : dsVal bs < 10 ^ bs.length := dsVal_lt hb.2
        have hbnd2 : dsVal as < 10 ^ as.length := dsVal_lt ha.2
        have : dsVal (b :: bs) < dsVal (a :: as) := by
          show dval b * 10 ^ bs.length + dsVal bs < dval a * 10 ^ as.length + dsVal as
          rw [hlen2]
          calc dval b * 10 ^ bs.length + dsVal bs
              < dval b * 10 ^ bs.length + 10 ^ bs.length := by omega
            _ = (dval b + 1) * 10 ^ bs.length := by ring
            _ ≤ dval a * 10 ^ bs.length := Nat.mul_le_mul_right _ (by omega)
            _ ≤ dval a * 10 ^ bs.length + dsVal as := by omega
        omega
      · have hab : a = b := char_toNat_inj (by omega)
        subst hab
        have hveq : dsVal as < dsVal bs := by
          have : dval a * 10 ^ as.length + dsVal as < dval a * 10 ^ bs.length + dsVal bs := hv
          rw [hlen2] at this
          omega
        simp only [strLtB, if_neg h1, if_neg h2]
        exact strLtB_of_dsVal_lt as bs ha.2 hb.2 hlen2 hveq

/-! ### Usable-kid scan lemmas -/

theorem mem_usableOf {delay now : Int} {k : List Char} {l : List (List Char × Int)} :
    k ∈ usableOf delay now l ↔ ∃ t, (k, t) ∈ l ∧ delay ≤ now - t := by
  unfold usableOf
  rw [List.mem_filterMap]
  constructor
  · rintro ⟨⟨a, t⟩, hmem, hif⟩
    by_cases hu : delay ≤ now - t
    · rw [if_pos hu] at hif
      injection hif with hif
      subst hif
      exact ⟨t, hmem, hu⟩
    · rw [if_neg hu] at hif
      cases hif
  · rintro ⟨t, hmem, hu⟩
    exact ⟨(k, t), hmem, by rw [if_pos hu]⟩

theorem foldl_cool_eq_or_mem (delay now : Int) :
    ∀ (l : List (List Char × Int)) (acc : List Char),
      l.foldl (coolStep delay now) acc = acc ∨
      l.foldl (coolStep delay now) acc ∈ usableOf delay now l
  | [], _ => Or.inl rfl
  | p :: rest, acc => by
    rw [List.foldl_cons]
    by_cases hu : delay ≤ now - p.2
    · have hmemu : usableOf delay now (p :: rest) = p.1 :: usableOf delay now rest :=
        List.filterMap_cons_some (by rw [if_pos hu])
      rw [hmemu]
      rcases foldl_cool_eq_or_mem delay now rest (coolStep delay now acc p) with h | h
      · rw [h]
        unfold coolStep
        rw [if_pos hu]
        by_cases hp : (acc.isEmpty || strLtB acc p.1) = true
        · rw [if_pos hp]
          exact Or.inr (List.mem_cons_self _ _)
        · rw [if_neg hp]
          exact Or.inl rfl
      · exact Or.inr (List.mem_cons_of_mem _ h)
    · have hstep : coolStep delay now acc p = acc := by
        unfold coolStep
        rw [if_neg hu]
      have hmemu : usableOf delay now (p :: rest) = usableOf delay now rest :=
        List.filterMap_cons_none (by rw [if_neg hu])
      rw [hstep, hmemu]
      exact foldl_cool_eq_or_mem delay now rest acc

theorem foldl_cool_of_none (delay now : Int) :
    ∀ (l : List (List Char × Int)) (acc : List Char),
      usableOf delay now l = [] → l.foldl (coolStep delay now) acc = acc
  | [], _, _ => rfl
  | p :: rest, acc, h => by
    by_cases hu : delay ≤ now - p.2
    · exfalso
      rw [show usableOf delay now (p :: rest) = p.1 :: usableOf delay now rest from
        List.filterMap_cons_some (by rw [if_pos hu])] at h
      cases h
    · have hstep : coolStep delay now acc p = acc := by
        unfold coolStep
        rw [if_neg hu]
      rw [show usableOf delay now (p :: rest) = usableOf delay now rest from
        List.filterMap_cons_none (by rw [if_neg hu])] at h
      rw [List.foldl_cons, hstep]
      exact foldl_cool_of_none delay now rest acc h

theorem bool_not_false_eq_true {b : Bool} (h : ¬ b = false) : b = true := by
  cases b
  · exact absurd rfl h
  · rfl

theorem foldl_cool_max (delay now : Int) :
    ∀ (l : List (List Char × Int)) (acc : List Char),
      (∀ k ∈ usableOf delay now l,
        strLtB (l.foldl (coolStep delay now) acc) k = false) ∧
      strLtB (l.foldl (coolStep delay now) acc) acc = false
  | [], acc => ⟨fun k hk => absurd hk (List.not_mem_nil k), strLtB_irrefl acc⟩
  | p :: rest, acc => by
    rw [List.foldl_cons]
    by_cases hu : delay ≤ now - p.2
    · have hmemu : usableOf delay now (p :: rest) = p.1 :: usableOf delay now rest :=
        List.filterMap_cons_some (by rw [if_pos hu])
      rw [hmemu]
      by_cases hp : (acc.isEmpty || strLtB acc p.1) = true
      · have hstep : coolStep delay now acc p = p.1 := by
          unfold coolStep
          rw [if_pos hu, if_pos hp]
        rw [hstep]
        obtain ⟨ih1, ih2⟩ := foldl_cool_max delay now rest p.1
        refine ⟨fun k hk => ?_, ?_⟩
        · rcases List.mem_cons.mp hk with hk1 | hk2
          · rw [hk1]
            exact ih2
          · exact ih1 k hk2
        · rw [Bool.or_eq_true] at hp
          rcases hp with hemp | hlt
          · rw [List.isEmpty_iff.mp hemp, strLtB_nil_right]
          · by_contra hcon
            have hcon2 := bool_not_false_eq_true hcon
            have htr := strLtB_trans _ _ _ hcon2 hlt
            exact Bool.noConfusion (ih2.symm.trans htr)
      · have hstep : coolStep delay now acc p = acc := by
          unfold coolStep
          rw [if_pos hu, if_neg hp]
        rw [hstep]
        obtain ⟨ih1, ih2⟩ := foldl_cool_max delay now rest acc
        have hpfalse : strLtB acc p.1 = false := by
          revert hp
          cases acc.isEmpty <;> cases strLtB acc p.1 <;> simp
        refine ⟨fun k hk => ?_, ih2⟩
        rcases List.mem_cons.mp hk with hk1 | hk2
        · rw [hk1]
          rcases (strLtB_false_iff acc p.1).mp hpfalse with heq | hgt
          · rw [← heq]
            exact ih2
          · by_contra hcon
            have hcon2 := bool_not_false_eq_true hcon
            have htr := strLtB_trans _ _ _ hcon2 hgt
            exact Bool.noConfusion (ih2.symm.trans htr)
        · exact ih1 k hk2
    · have hstep : coolStep delay now acc p = acc := by
        unfold coolStep
        rw [if_neg hu]
      have hmemu : usableOf delay now (p :: rest) = usableOf delay now rest :=
        List.filterMap_cons_none (by rw [if_neg hu])
      rw [hstep, hmemu]
      exact foldl_cool_max delay now rest acc

theorem foldl_cool_ne_nil (delay now : Int) :
    ∀ (l : List (List Char × Int)) (acc : List Char),
      (∀ p ∈ l, p.1 ≠ ([] : List Char)) →
      (acc ≠ [] ∨ usableOf delay now l ≠ []) →
      l.foldl (coolStep delay now) acc ≠ []
  | [], acc, _, h => by
    rcases h with h | h
    · exact h
    · exact absurd rfl h
  | p :: rest, acc, hne, h => by
    rw [List.foldl_cons]
    by_cases hu : delay ≤ now - p.2
    · apply foldl_cool_ne_nil delay now rest _
        (fun q hq => hne q (List.mem_cons_of_mem _ hq))
      left
      by_cases hp : (acc.isEmpty || strLtB acc p.1) = true
      · rw [show coolStep delay now acc p = p.1 from by
          unfold coolStep; rw [if_pos hu, if_pos hp]]
        exact hne p (List.mem_cons_self _ _)
      · rw [show coolStep delay now acc p = acc from by
          unfold coolStep; rw [if_pos hu, if_neg hp]]
        intro hn
        rw [hn] at hp
        exact hp (by rw [show ([] : List Char).isEmpty = true from rfl, Bool.true_or])
    · rw [show coolStep delay now acc p = acc from by
        unfold coolStep; rw [if_neg hu]]
      apply foldl_cool_ne_nil delay now rest acc
        (fun q hq => hne q (List.mem_cons_of_mem _ hq))
      rcases h with h | h
      · exact Or.inl h
      · right
        rw [show usableOf delay now (p :: rest) = usableOf delay now rest from
          List.filterMap_cons_none (by rw [if_neg hu])] at h
        exact h

/-! ### Usable-kid selection: derived facts -/

theorem usableKid_spec (s : Signer) (now : Int)
    (hne : ∀ k ∈ s.keyAddedTimes.map Prod.fst, k ≠ ([] : List Char))
    (hu : usableList s now ≠ []) :
    usableKidOf s now ∈ usableList s now ∧
    usableKidOf s now ≠ [] ∧
    ∀ j ∈ usableList s now, strLtB (usableKidOf s now) j = false := by
  have hne2 : ∀ p ∈ s.keyAddedTimes, p.1 ≠ ([] : List Char) :=
    fun p hp => hne p.1 (List.mem_map.mpr ⟨p, hp, rfl⟩)
  have h1 : usableKidOf s now ≠ [] :=
    foldl_cool_ne_nil _ _ _ _ hne2 (Or.inr hu)
  rcases foldl_cool_eq_or_mem s.newKeyUseDelay now s.keyAddedTimes [] with h2 | h2
  · exact absurd h2 h1
  · exact ⟨h2, h1, (foldl_cool_max s.newKeyUseDelay now s.keyAddedTimes []).1⟩

theorem isEmpty_false_of_ne_nil {α : Type} {l : List α} (h : l ≠ []) :
    l.isEmpty = false := by
  cases l with
  | nil => exact absurd rfl h
  | cons a as => rfl

theorem getLatest_eq (s : Signer) (now : Int)
    (hne : usableKidOf s now ≠ []) :
    getLatestKidAndKeyWithCoolOff s now =
      (usableKidOf s now, look (usableKidOf s now) s.signingKeys) := by
  unfold getLatestKidAndKeyWithCoolOff
  rw [isEmpty_false_of_ne_nil hne]
  rw [if_neg (fun h => Bool.noConfusion h)]

theorem getLatest_eq_none (s : Signer) (now : Int)
    (hnil : usableKidOf s now = []) :
    getLatestKidAndKeyWithCoolOff s now = ([], none) := by
  unfold getLatestKidAndKeyWithCoolOff
  rw [hnil]
  rw [if_pos (show ([] : List Char).isEmpty = true from rfl)]

theorem generate_ok (s : Signer) (now : Int) (username : String)
    (groups : List String) (uid : String) (extra : List (String × List String))
    (path domain tokenType : String) (key : Bytes)
    (hne : usableKidOf s now ≠ [])
    (hlk : look (usableKidOf s now) s.signingKeys = some key) :
    generateToken s now username groups uid extra path domain tokenType =
      .ok (genTok s now (usableKidOf s now) key username groups uid extra path domain tokenType) := by
  unfold generateToken
  rw [getLatest_eq s now hne, hlk]
  show (if (usableKidOf s now).isEmpty = true then Except.error GenErr.noUsableKey
    else Except.ok (genTok s now (usableKidOf s now) key username groups uid extra
      path domain tokenType)) = _
  rw [isEmpty_false_of_ne_nil hne]
  rw [if_neg (fun h => Bool.noConfusion h)]

/-- C1: a token is only ever signed with a kid whose `AddedAt` satisfies
`AddedAt[kid] + newKeyUseDelay ≤ now` at signing time, and when no kid
passes the cool-off rule `GenerateToken` fails with the `ErrNoUsableKey`
error instead of signing. -/
theorem c1_generate_cooloff (s : Signer) (now : Int) (username : String)
    (groups : List String) (uid : String) (extra : List (String × List String))
    (path domain tokenType : String)
    (hnd : (s.keyAddedTimes.map Prod.fst).Nodup) :
    (∀ tok, generateToken s now username groups uid extra path domain tokenType = .ok tok →
      ∃ k t, tok.kid = some k ∧ look k s.keyAddedTimes = some t ∧
        t + s.newKeyUseDelay ≤ now) ∧
    ((∀ p ∈ s.keyAddedTimes, now - p.2 < s.newKeyUseDelay) →
      generateToken s now username groups uid extra path domain tokenType =
        .error .noUsableKey) := by
  constructor
  · intro tok h
    by_cases hu : usableKidOf s now = []
    · exfalso
      unfold generateToken at h
      rw [getLatest_eq_none s now hu] at h
      exact Except.noConfusion h
    · rcases hlk : look (usableKidOf s now) s.signingKeys with _ | key
      · exfalso
        unfold generateToken at h
        rw [getLatest_eq s now hu, hlk] at h
        exact Except.noConfusion h
      · rw [generate_ok s now username groups uid extra path domain tokenType key hu hlk] at h
        injection h with h
        subst h
        have hmem : usableKidOf s now ∈ usableList s now := by
          rcases foldl_cool_eq_or_mem s.newKeyUseDelay now s.keyAddedTimes [] with h2 | h2
          · exact absurd h2 hu
          · exact h2
        obtain ⟨t, hmemt, ht⟩ := mem_usableOf.mp hmem
        refine ⟨usableKidOf s now, t, rfl, look_mem_of_nodup hnd hmemt, by omega⟩
  · intro hcool
    have hnone : usableOf s.newKeyUseDelay now s.keyAddedTimes = [] := by
      apply List.filterMap_eq_nil_iff.mpr
      intro p hp
      rw [if_neg (by have := hcool p hp; omega)]
    have hu : usableKidOf s now = [] :=
      foldl_cool_of_none s.newKeyUseDelay now s.keyAddedTimes [] hnone
    unfold generateToken
    rw [getLatest_eq_none s now hu]

/-- Witness for C1: a signer whose only key is inside cool-off refuses to
sign with the `ErrNoUsableKey` failure. -/
theorem c1_witness :
    ((sCoolC1.keyAddedTimes.map Prod.fst).Nodup ∧
      (∀ p ∈ sCoolC1.keyAddedTimes, 0 - p.2 < sCoolC1.newKeyUseDelay)) ∧
    generateToken sCoolC1 0 "u" [] "" [] "" "" "" = .error .noUsableKey :=
  ⟨⟨by decide, by decide⟩,
    (c1_generate_cooloff sCoolC1 0 "u" [] "" [] "" "" "" (by decide)).2 (by decide)⟩

/-- C2 counterexample: with usable kids `9` and `10` (numeric 10 the
greatest), the signer emits kid `9` — the selection is byte-wise
lexicographic (`kid > usableKid` on Go strings), not numeric. -/
theorem c2_counterexample :
    generateToken s910 100 "u" [] "" [] "" "" "" =
      .ok (genTok s910 100 (str "9") [1] "u" [] "" [] "" "" "") ∧
    (genTok s910 100 (str "9") [1] "u" [] "" [] "" "" "").kid = some (str "9") ∧
    str "10" ∈ usableList s910 100 ∧
    parseDecInt (str "9") = some 9 ∧ parseDecInt (str "10") = some 10 ∧
    (9 : Int) < 10 :=
  ⟨by decide, by decide, by decide, by decide, by decide, by decide⟩

/-- C2 amended: with at least one usable kid, generate signs with the
byte-wise lexicographically greatest usable kid; when all usable kids
have decimal strings of equal length this coincides with the numerically
greatest kid. -/
theorem c2_lex_selection (s : Signer) (now : Int) (username : String)
    (groups : List String) (uid : String) (extra : List (String × List String))
    (path domain tokenType : String)
    (hWF : SignerWF s) (u0 : List Char) (hu0 : u0 ∈ usableList s now) :
    ∃ key, generateToken s now username groups uid extra path domain tokenType =
        .ok (genTok s now (usableKidOf s now) key username groups uid extra path domain tokenType) ∧
      usableKidOf s now ∈ usableList s now ∧
      (∀ j ∈ usableList s now, strLtB (usableKidOf s now) j = false) ∧
      ((∀ j ∈ usableList s now, allDigits j = true ∧ j.length = (usableKidOf s now).length) →
        ∀ j ∈ usableList s now, dsVal j ≤ dsVal (usableKidOf s now)) := by
  obtain ⟨hWF1, hWF2, hWF3, hWF4, hWF5⟩ := hWF
  have hnonnil : usableList s now ≠ [] := fun h => List.not_mem_nil u0 (h ▸ hu0)
  obtain ⟨hmem, hne, hmax⟩ := usableKid_spec s now hWF5 hnonnil
  have hkid_mem : usableKidOf s now ∈ s.keyAddedTimes.map Prod.fst := by
    obtain ⟨t, ht, _⟩ := mem_usableOf.mp hmem
    exact List.mem_map.mpr ⟨(usableKidOf s now, t), ht, rfl⟩
  obtain ⟨key, hkey⟩ :=
    Option.isSome_iff_exists.mp (look_isSome_iff.mpr (hWF3 _ hkid_mem))
  refine ⟨key, generate_ok s now username groups uid extra path domain tokenType key hne hkey,
    hmem, hmax, ?_⟩
  intro hdig j hj
  by_contra hcon
  push_neg at hcon
  have hd1 := hdig j hj
  have hd2 := hdig _ hmem
  have hlt := strLtB_of_dsVal_lt _ _ hd2.1 hd1.1 (hd1.2 ▸ hd2.2) hcon
  exact Bool.noConfusion ((hmax j hj).symm.trans hlt)

/-- Witness for C2: the amended selection theorem applied to the
`9`-versus-`10` signer. -/
theorem c2_witness :
    (SignerWF s910 ∧ str "9" ∈ usableList s910 100) ∧
    (∃ key, generateToken s910 100 "u" [] "" [] "" "" "" =
        .ok (genTok s910 100 (usableKidOf s910 100) key "u" [] "" [] "" "" "") ∧
      usableKidOf s910 100 ∈ usableList s910 100 ∧
      (∀ j ∈ usableList s910 100, strLtB (usableKidOf s910 100) j = false) ∧
      ((∀ j ∈ usableList s910 100,
          allDigits j = true ∧ j.length = (usableKidOf s910 100).length) →
        ∀ j ∈ usableList s910 100, dsVal j ≤ dsVal (usableKidOf s910 100))) :=
  ⟨⟨by decide, by decide⟩,
    c2_lex_selection s910 100 "u" [] "" [] "" "" "" (by decide) (str "9") (by decide)⟩

/-! ### Validation of a freshly generated token -/

theorem validate_genTok (s : Signer) (now : Int) (kid : List Char) (key : Bytes)
    (username : String) (groups : List String) (uid : String)
    (extra : List (String × List String)) (path domain tokenType : String)
    (hne : kid ≠ [])
    (hkey : look kid s.signingKeys = some key)
    (hexp : 0 < s.expiration) :
    validateToken s now (genTok s now kid key username groups uid extra path domain tokenType) =
      .ok (genClaims s now username groups uid extra path domain tokenType) := by
  unfold validateToken genTok
  rw [if_neg (fun h => h (by decide : ("HS384" : String) ∈ knownAlgs))]
  rw [if_neg (fun h => h rfl)]
  rw [if_neg (fun h => h (by decide : ("HS384" : String) ∈ hmacAlgs))]
  rw [if_neg (fun h => h rfl)]
  show (if kid.isEmpty = true then _ else _) = _
  rw [isEmpty_false_of_ne_nil hne]
  rw [if_neg (fun h => Bool.noConfusion h)]
  rw [hkey]
  show (if _ ≠ _ then _ else _) = _
  rw [if_neg (fun h => h rfl)]
  unfold leeway
  show (if ¬ now < (now + s.expiration) + 5 then Except.error VErr.tokenExpired
    else if ¬ (now ≤ now + 5 ∧ (s.issuer = "" ∨ s.issuer = s.issuer) ∧
      (s.audience = "" ∨ s.audience ∈ [s.audience])) then
      Except.error (VErr.invalidToken InvalidTokenCause.claims)
    else Except.ok (genClaims s now username groups uid extra path domain tokenType)) =
    Except.ok (genClaims s now username groups uid extra path domain tokenType)
  rw [if_neg (not_not_intro (by omega : now < (now + s.expiration) + 5))]
  rw [if_neg (not_not_intro ⟨by omega, Or.inr rfl, Or.inr (List.mem_singleton.mpr rfl)⟩)]

/-- C3: for a signer with a usable key and positive configured expiration,
validating a freshly generated token succeeds and returns exactly the
claims payload it was generated from. -/
theorem c3_roundtrip (s : Signer) (now : Int) (username : String)
    (groups : List String) (uid : String) (extra : List (String × List String))
    (path domain tokenType : String)
    (hWF : SignerWF s) (hexp : 0 < s.expiration)
    (u0 : List Char) (hu0 : u0 ∈ usableList s now) :
    ∃ tok, generateToken s now username groups uid extra path domain tokenType = .ok tok ∧
      validateToken s now tok = .ok tok.claims ∧
      tok.claims.user = username ∧ tok.claims.subject = username ∧
      tok.claims.groups = groups ∧ tok.claims.uid = uid ∧
      tok.claims.extra = extra ∧ tok.claims.path = path ∧
      tok.claims.domain = domain ∧ tok.claims.tokenType = tokenType := by
  obtain ⟨hWF1, hWF2, hWF3, hWF4, hWF5⟩ := hWF
  have hnonnil : usableList s now ≠ [] := fun h => List.not_mem_nil u0 (h ▸ hu0)
  obtain ⟨hmem, hne, _⟩ := usableKid_spec s now hWF5 hnonnil
  have hkid_mem : usableKidOf s now ∈ s.keyAddedTimes.map Prod.fst := by
    obtain ⟨t, ht, _⟩ := mem_usableOf.mp hmem
    exact List.mem_map.mpr ⟨(usableKidOf s now, t), ht, rfl⟩
  obtain ⟨key, hkey⟩ :=
    Option.isSome_iff_exists.mp (look_isSome_iff.mpr (hWF3 _ hkid_mem))
  exact ⟨genTok s now (usableKidOf s now) key username groups uid extra path domain tokenType,
    generate_ok s now username groups uid extra path domain tokenType key hne hkey,
    validate_genTok s now (usableKidOf s now) key username groups uid extra path domain
      tokenType hne hkey hexp,
    rfl, rfl, rfl, rfl, rfl, rfl, rfl, rfl⟩

/-- Witness for C3: the roundtrip theorem applied to a concrete one-key
signer and a concrete claims payload. -/
theorem c3_witness :
    (SignerWF sRT ∧ 0 < sRT.expiration ∧ str "1000" ∈ usableList sRT 10) ∧
    (∃ tok, generateToken sRT 10 "u" ["g1"] "uid1" [("k", ["v"])] "/p" "d" "session" = .ok tok ∧
      validateToken sRT 10 tok = .ok tok.claims ∧
      tok.claims.user = "u" ∧ tok.claims.subject = "u" ∧
      tok.claims.groups = ["g1"] ∧ tok.claims.uid = "uid1" ∧
      tok.claims.extra = [("k", ["v"])] ∧ tok.claims.path = "/p" ∧
      tok.claims.domain = "d" ∧ tok.claims.tokenType = "session") :=
  ⟨⟨by decide, by decide, by decide⟩,
    c3_roundtrip sRT 10 "u" ["g1"] "uid1" [("k", ["v"])] "/p" "d" "session"
      (by decide) (by decide) (str "1000") (by decide)⟩

/-- C4 counterexample: a token declaring the unregistered algorithm name
`FOO` (≠ HS384) fails validation, but with the `ErrInvalidToken` fallback
(the library reports the algorithm as unavailable before the
valid-methods check can produce `ErrTokenSignatureInvalid`), not with the
`ErrInvalidSignature` kind the claim asserts for every non-HS384
algorithm. -/
theorem c4_counterexample :
    tokFoo.alg ≠ "HS384" ∧
    validateToken sRT 10 tokFoo = .error (.invalidToken .algUnavailable) ∧
    VErr.invalidToken .algUnavailable ≠ VErr.invalidSignature ∧
    (VErr.invalidToken .algUnavailable).sentinel = .errInvalidToken :=
  ⟨by decide, by decide, by decide, by decide⟩

/-- C4 amended: every token whose header algorithm differs from HS384
fails validation; when the declared algorithm is one registered in the
jwt library (HS256 in particular, even over genuine key bytes) the
failure is the `ErrInvalidSignature` kind, while an unregistered
algorithm name fails with the `ErrInvalidToken` fallback. -/
theorem c4_alg_pinning (s : Signer) (now : Int) (tok : Token)
    (halg : tok.alg ≠ "HS384") :
    ∃ e, validateToken s now tok = .error e ∧
      (tok.alg ∈ knownAlgs → e = .invalidSignature) := by
  by_cases hk : tok.alg ∈ knownAlgs
  · refine ⟨.invalidSignature, ?_, fun _ => rfl⟩
    unfold validateToken
    rw [if_neg (not_not_intro hk), if_pos halg]
  · refine ⟨.invalidToken .algUnavailable, ?_, fun h => absurd h hk⟩
    unfold validateToken
    rw [if_pos hk]

/-- Witness for C4: the amended theorem applied to an HS256 token forged
over the genuine key bytes of a known kid. -/
theorem c4_witness :
    (tokHs256.alg ≠ "HS384") ∧
    (∃ e, validateToken sRT 10 tokHs256 = .error e ∧
      (tokHs256.alg ∈ knownAlgs → e = .invalidSignature)) :=
  ⟨by decide, c4_alg_pinning sRT 10 tokHs256 (by decide)⟩

/-- C5 counterexample: a well-formed HS384 token with the unknown kid
`9999` fails validation, but the error is the `ErrInvalidToken` fallback
wrapping the keyfunc unknown-key-ID cause — under `errors.Is` a caller
sees `ErrInvalidToken`; the code defines no distinct `ErrUnknownKid`
sentinel. -/
theorem c5_counterexample :
    tokUnknown.alg = "HS384" ∧ tokUnknown.kid = some (str "9999") ∧
    look (str "9999") sRT.signingKeys = none ∧
    validateToken sRT 10 tokUnknown =
      .error (.invalidToken (.keyfunc (.unknownKid (str "9999")))) ∧
    (VErr.invalidToken (.keyfunc (.unknownKid (str "9999")))).sentinel =
      .errInvalidToken :=
  ⟨by decide, by decide, by decide, by decide, by decide⟩

/-- C5 amended: a token declaring HS384 whose non-empty header kid is not
in the verifier's key set always fails validation; the returned error is
the `ErrInvalidToken` fallback wrap recording the unknown-key-ID keyfunc
cause (not a distinct `ErrUnknownKid` sentinel, which the code does not
define). -/
theorem c5_unknown_kid (s : Signer) (now : Int) (tok : Token) (k : List Char)
    (halg : tok.alg = "HS384") (hkid : tok.kid = some k) (hne : k ≠ [])
    (hlk : look k s.signingKeys = none) :
    validateToken s now tok = .error (.invalidToken (.keyfunc (.unknownKid k))) ∧
    (VErr.invalidToken (.keyfunc (.unknownKid k))).sentinel = .errInvalidToken := by
  refine ⟨?_, rfl⟩
  unfold validateToken
  rw [halg]
  rw [if_neg (fun h => h (by decide : ("HS384" : String) ∈ knownAlgs))]
  rw [if_neg (fun h => h rfl)]
  rw [if_neg (fun h => h (by decide : ("HS384" : String) ∈ hmacAlgs))]
  rw [if_neg (fun h => h rfl)]
  rw [hkid]
  show (if k.isEmpty = true then _ else _) = _
  rw [isEmpty_false_of_ne_nil hne]
  rw [if_neg (fun h => Bool.noConfusion h)]
  rw [hlk]

/-- Witness for C5: the amended theorem applied to the unknown-kid token. -/
theorem c5_witness :
    (tokUnknown.alg = "HS384" ∧ tokUnknown.kid = some (str "9999") ∧
      str "9999" ≠ ([] : List Char) ∧ look (str "9999") sRT.signingKeys = none) ∧
    (validateToken sRT 10 tokUnknown =
        .error (.invalidToken (.keyfunc (.unknownKid (str "9999")))) ∧
      (VErr.invalidToken (.keyfunc (.unknownKid (str "9999")))).sentinel =
        .errInvalidToken) :=
  ⟨⟨by decide, by decide, by decide, by decide⟩,
    c5_unknown_kid sRT 10 tokUnknown (str "9999") (by decide) (by decide)
      (by decide) (by decide)⟩

/-- C7: a successful `UpdateKeys` carries the previous `AddedAt` stamp of
every kid present before and after, stamps kids new to this replica with
the call instant, and leaves the `AddedAt` domain equal to the new key
set's domain. -/
theorem c7_update_preserves (s : Signer) (keys : List (List Char × Bytes))
    (latest : List Char) (now : Int) (s2 : Signer)
    (h : updateKeys s keys latest now = .ok s2) :
    (∀ kid t, look kid s.keyAddedTimes = some t → (look kid keys).isSome = true →
      look kid s2.keyAddedTimes = some t) ∧
    (∀ kid, (look kid keys).isSome = true → look kid s.keyAddedTimes = none →
      look kid s2.keyAddedTimes = some now) ∧
    s2.keyAddedTimes.map Prod.fst = s2.signingKeys.map Prod.fst := by
  unfold updateKeys at h
  by_cases h1 : keys.isEmpty = true
  · rw [if_pos h1] at h
    exact Except.noConfusion h
  · rw [if_neg h1] at h
    by_cases h2 : (look latest keys).isNone = true
    · rw [if_pos h2] at h
      exact Except.noConfusion h
    · rw [if_neg h2] at h
      injection h with h
      subst h
      refine ⟨?_, ?_, ?_⟩
      · intro kid t hold hsome
        obtain ⟨v, hv⟩ := Option.isSome_iff_exists.mp hsome
        have heq := look_map_snd (fun q => match look q s.keyAddedTimes with
          | some oldTime => oldTime
          | none => now) kid keys
        rw [hv, hold] at heq
        exact heq
      · intro kid hsome hnone
        obtain ⟨v, hv⟩ := Option.isSome_iff_exists.mp hsome
        have heq := look_map_snd (fun q => match look q s.keyAddedTimes with
          | some oldTime => oldTime
          | none => now) kid keys
        rw [hv, hnone] at heq
        exact heq
      · show (keys.map fun p =>
          (p.1, match look p.1 s.keyAddedTimes with
                | some oldTime => oldTime
                | none => now)).map Prod.fst = keys.map Prod.fst
        rw [List.map_map]
        rfl

/-- Witness for C7 at a concrete update carrying kid `1000` (stamp 3) and
introducing kid `2000` (stamped with the call instant 50). -/
theorem c7_witness :
    (updateKeys sC7 keysC7 (str "2000") 50 = .ok s2C7) ∧
    look (str "1000") s2C7.keyAddedTimes = some 3 ∧
    look (str "2000") s2C7.keyAddedTimes = some 50 ∧
    s2C7.keyAddedTimes.map Prod.fst = s2C7.signingKeys.map Prod.fst :=
  ⟨by decide,
    (c7_update_preserves sC7 keysC7 (str "2000") 50 s2C7 (by decide)).1
      (str "1000") 3 (by decide) (by decide),
    (c7_update_preserves sC7 keysC7 (str "2000") 50 s2C7 (by decide)).2.1
      (str "2000") (by decide) (by decide),
    (c7_update_preserves sC7 keysC7 (str "2000") 50 s2C7 (by decide)).2.2⟩

/-! ### Parse-loop characterization lemmas -/

theorem kvOf_cons_pfx {name : List Char} {value : Bytes}
    {rest : List (List Char × Bytes)} (hp : hasKeyPfx name = true) :
    kvOf ((name, value) :: rest) = (suffixOf name, value) :: kvOf rest :=
  List.filterMap_cons_some (by rw [if_pos hp])

theorem kvOf_cons_nopfx {name : List Char} {value : Bytes}
    {rest : List (List Char × Bytes)} (hp : ¬ hasKeyPfx name = true) :
    kvOf ((name, value) :: rest) = kvOf rest :=
  List.filterMap_cons_none (by rw [if_neg hp])

theorem parseLoop_cons_pfx_ok {name : List Char} {value : Bytes}
    {rest acc : List (List Char × Bytes)} {lt : Int} {lk : List Char} {ts : Int}
    (hp : hasKeyPfx name = true) (hpt : parseKeyTimestamp name = .ok ts) :
    parseLoop ((name, value) :: rest) acc lt lk =
      if lt < ts then parseLoop rest (acc ++ [(suffixOf name, value)]) ts (suffixOf name)
      else parseLoop rest (acc ++ [(suffixOf name, value)]) lt lk := by
  simp only [parseLoop]
  rw [if_pos hp, hpt]

theorem parseLoop_cons_pfx_err {name : List Char} {value : Bytes}
    {rest acc : List (List Char × Bytes)} {lt : Int} {lk : List Char} {e : KeyNameErr}
    (hp : hasKeyPfx name = true) (hpt : parseKeyTimestamp name = .error e) :
    parseLoop ((name, value) :: rest) acc lt lk = .error (.invalidKeyFormat name) := by
  simp only [parseLoop]
  rw [if_pos hp, hpt]

theorem parseLoop_cons_nopfx {name : List Char} {value : Bytes}
    {rest acc : List (List Char × Bytes)} {lt : Int} {lk : List Char}
    (hp : ¬ hasKeyPfx name = true) :
    parseLoop ((name, value) :: rest) acc lt lk = parseLoop rest acc lt lk := by
  simp only [parseLoop]
  rw [if_neg hp]

theorem parseSK_some (l : List (List Char × Bytes)) :
    parseSigningKeysFromSecret (some l) =
      match parseLoop l [] 0 [] with
      | .error e => .error e
      | .ok (m, _, latestKid) =>
        if m.isEmpty then .error .noKeys else .ok (m, latestKid) := rfl

theorem parseLoop_ok_acc : ∀ (l acc : List (List Char × Bytes)) (lt : Int)
    (lk : List Char) {m : List (List Char × Bytes)} {lt2 : Int} {lk2 : List Char},
    parseLoop l acc lt lk = .ok (m, lt2, lk2) → m = acc ++ kvOf l
  | [], acc, lt, lk, m, lt2, lk2, h => by
    injection h with h
    injection h with h1 h2
    rw [← h1, show kvOf [] = [] from rfl, List.append_nil]
  | (name, value) :: rest, acc, lt, lk, m, lt2, lk2, h => by
    by_cases hp : hasKeyPfx name = true
    · cases hpt : parseKeyTimestamp name with
      | error e =>
        rw [parseLoop_cons_pfx_err hp hpt] at h
        exact Except.noConfusion h
      | ok ts =>
        rw [parseLoop_cons_pfx_ok hp hpt] at h
        by_cases hlt : lt < ts
        · rw [if_pos hlt] at h
          rw [parseLoop_ok_acc rest (acc ++ [(suffixOf name, value)]) ts (suffixOf name) h,
            kvOf_cons_pfx hp, List.append_assoc, List.singleton_append]
        · rw [if_neg hlt] at h
          rw [parseLoop_ok_acc rest (acc ++ [(suffixOf name, value)]) lt lk h,
            kvOf_cons_pfx hp, List.append_assoc, List.singleton_append]
    · rw [parseLoop_cons_nopfx hp] at h
      rw [parseLoop_ok_acc rest acc lt lk h, kvOf_cons_nopfx hp]

theorem parseLoop_err_of_bad : ∀ (l acc : List (List Char × Bytes)) (lt : Int)
    (lk : List Char),
    (∃ p ∈ l, hasKeyPfx p.1 = true ∧ (parseKeyTimestamp p.1).isOk = false) →
    ∃ name, parseLoop l acc lt lk = .error (.invalidKeyFormat name)
  | [], _, _, _, h => by
    rcases h with ⟨p, hp, _⟩
    cases hp
  | (name, value) :: rest, acc, lt, lk, h => by
    by_cases hp : hasKeyPfx name = true
    · cases hpt : parseKeyTimestamp name with
      | error e =>
        exact ⟨name, parseLoop_cons_pfx_err hp hpt⟩
      | ok ts =>
        have hrest : ∃ p ∈ rest, hasKeyPfx p.1 = true ∧
            (parseKeyTimestamp p.1).isOk = false := by
          rcases h with ⟨p, hmem, hppfx, hbad⟩
          rcases List.mem_cons.mp hmem with heq | hm
          · exfalso
            rw [heq] at hbad
            rw [show ((name, value) : List Char × Bytes).1 = name from rfl, hpt] at hbad
            exact Bool.noConfusion hbad
          · exact ⟨p, hm, hppfx, hbad⟩
        by_cases hlt : lt < ts
        · obtain ⟨nm, hnm⟩ := parseLoop_err_of_bad rest
            (acc ++ [(suffixOf name, value)]) ts (suffixOf name) hrest
          refine ⟨nm, ?_⟩
          rw [parseLoop_cons_pfx_ok hp hpt, if_pos hlt]
          exact hnm
        · obtain ⟨nm, hnm⟩ := parseLoop_err_of_bad rest
            (acc ++ [(suffixOf name, value)]) lt lk hrest
          refine ⟨nm, ?_⟩
          rw [parseLoop_cons_pfx_ok hp hpt, if_neg hlt]
          exact hnm
    · have hrest : ∃ p ∈ rest, hasKeyPfx p.1 = true ∧
          (parseKeyTimestamp p.1).isOk = false := by
        rcases h with ⟨p, hmem, hppfx, hbad⟩
        rcases List.mem_cons.mp hmem with heq | hm
        · exfalso
          rw [heq] at hppfx
          exact hp hppfx
        · exact ⟨p, hm, hppfx, hbad⟩
      obtain ⟨nm, hnm⟩ := parseLoop_err_of_bad rest acc lt lk hrest
      refine ⟨nm, ?_⟩
      rw [parseLoop_cons_nopfx hp]
      exact hnm

theorem parseLoop_ok_of_good : ∀ (l acc : List (List Char × Bytes)) (lt : Int)
    (lk : List Char),
    (∀ p ∈ l, hasKeyPfx p.1 = true → (parseKeyTimestamp p.1).isOk = true) →
    ∃ m lt2 lk2, parseLoop l acc lt lk = .ok (m, lt2, lk2)
  | [], acc, lt, lk, _ => ⟨acc, lt, lk, rfl⟩
  | (name, value) :: rest, acc, lt, lk, h => by
    have hrest : ∀ p ∈ rest, hasKeyPfx p.1 = true → (parseKeyTimestamp p.1).isOk = true :=
      fun p hp => h p (List.mem_cons_of_mem _ hp)
    by_cases hp : hasKeyPfx name = true
    · cases hpt : parseKeyTimestamp name with
      | error e =>
        exfalso
        have := h (name, value) (List.mem_cons_self _ _) hp
        rw [show ((name, value) : List Char × Bytes).1 = name from rfl, hpt] at this
        exact Bool.noConfusion this
      | ok ts =>
        by_cases hlt : lt < ts
        · obtain ⟨m, lt2, lk2, hok⟩ := parseLoop_ok_of_good rest
            (acc ++ [(suffixOf name, value)]) ts (suffixOf name) hrest
          refine ⟨m, lt2, lk2, ?_⟩
          rw [parseLoop_cons_pfx_ok hp hpt, if_pos hlt]
          exact hok
        · obtain ⟨m, lt2, lk2, hok⟩ := parseLoop_ok_of_good rest
            (acc ++ [(suffixOf name, value)]) lt lk hrest
          refine ⟨m, lt2, lk2, ?_⟩
          rw [parseLoop_cons_pfx_ok hp hpt, if_neg hlt]
          exact hok
    · obtain ⟨m, lt2, lk2, hok⟩ := parseLoop_ok_of_good rest acc lt lk hrest
      refine ⟨m, lt2, lk2, ?_⟩
      rw [parseLoop_cons_nopfx hp]
      exact hok

theorem parseLoop_nonpos : ∀ (l acc : List (List Char × Bytes)),
    (∀ p ∈ l, hasKeyPfx p.1 = true → ∃ ts, parseKeyTimestamp p.1 = .ok ts ∧ ts ≤ 0) →
    parseLoop l acc 0 [] = .ok (acc ++ kvOf l, 0, [])
  | [], acc, _ => by
    rw [show kvOf [] = [] from rfl, List.append_nil]
    rfl
  | (name, value) :: rest, acc, h => by
    have hrest : ∀ p ∈ rest, hasKeyPfx p.1 = true →
        ∃ ts, parseKeyTimestamp p.1 = .ok ts ∧ ts ≤ 0 :=
      fun p hp => h p (List.mem_cons_of_mem _ hp)
    by_cases hp : hasKeyPfx name = true
    · obtain ⟨ts, hts, hle⟩ := h (name, value) (List.mem_cons_self _ _) hp
      rw [show ((name, value) : List Char × Bytes).1 = name from rfl] at hts
      rw [parseLoop_cons_pfx_ok hp hts, if_neg (by omega : ¬ (0 : Int) < ts)]
      rw [parseLoop_nonpos rest (acc ++ [(suffixOf name, value)]) hrest]
      rw [kvOf_cons_pfx hp, List.append_assoc, List.singleton_append]
    · rw [parseLoop_cons_nopfx hp]
      rw [parseLoop_nonpos rest acc hrest, kvOf_cons_nopfx hp]

theorem kvOf_kid_parses {l : List (List Char × Bytes)}
    (h : ∀ p ∈ l, hasKeyPfx p.1 = true → (parseKeyTimestamp p.1).isOk = true) :
    ∀ q ∈ kvOf l, (parseDecInt q.1).isSome = true := by
  intro q hq
  obtain ⟨p, hmem, hif⟩ := List.mem_filterMap.mp hq
  by_cases hp : hasKeyPfx p.1 = true
  · rw [if_pos hp] at hif
    have hok := h p hmem hp
    unfold parseKeyTimestamp at hok
    rw [if_pos hp] at hok
    cases hpd : parseDecInt (suffixOf p.1) with
    | none =>
      rw [hpd] at hok
      exact Bool.noConfusion hok
    | some t =>
      injection hif with hif
      rw [← hif]
      rw [show ((suffixOf p.1, p.2) : List Char × Bytes).1 = suffixOf p.1 from rfl, hpd]
      rfl
  · rw [if_neg hp] at hif
    cases hif

/-- C9: the store-record parse skips non-prefixed entries without error
and succeeds when at least one well-formed prefixed entry exists; any
prefixed entry whose suffix does not decode fails the whole parse with
the `ErrMalformedKey` kind; and a record with no prefixed entries at all
— a nil data map included — fails with the `ErrNoKeys` kind. -/
theorem c9_parse_error_taxonomy :
    (∀ d : Option (List (List Char × Bytes)),
      (∀ l, d = some l → ∀ p ∈ l, hasKeyPfx p.1 = false) →
      ∃ e, parseSigningKeysFromSecret d = .error e ∧ e.isNoKeysKind = true) ∧
    (∀ l : List (List Char × Bytes),
      (∃ p ∈ l, hasKeyPfx p.1 = true ∧ (parseKeyTimestamp p.1).isOk = false) →
      ∃ name, parseSigningKeysFromSecret (some l) = .error (.invalidKeyFormat name)) ∧
    (∀ l : List (List Char × Bytes),
      (∀ p ∈ l, hasKeyPfx p.1 = true → (parseKeyTimestamp p.1).isOk = true) →
      (∃ p ∈ l, hasKeyPfx p.1 = true) →
      ∃ m lk, parseSigningKeysFromSecret (some l) = .ok (m, lk)) := by
  refine ⟨?_, ?_, ?_⟩
  · intro d hnp
    cases d with
    | none => exact ⟨.noData, rfl, rfl⟩
    | some l =>
      have hall : ∀ p ∈ l, hasKeyPfx p.1 = true → (parseKeyTimestamp p.1).isOk = true := by
        intro p hp hpfx
        rw [hnp l rfl p hp] at hpfx
        exact Bool.noConfusion hpfx
      obtain ⟨m, lt2, lk2, hok⟩ := parseLoop_ok_of_good l [] 0 [] hall
      have hm : m = [] := by
        rw [parseLoop_ok_acc l [] 0 [] hok, List.nil_append]
        apply List.filterMap_eq_nil_iff.mpr
        intro p hp
        rw [if_neg (by rw [hnp l rfl p hp]; exact fun hc => Bool.noConfusion hc)]
      subst hm
      refine ⟨.noKeys, ?_, rfl⟩
      rw [parseSK_some l, hok]
      rfl
  · intro l hbad
    obtain ⟨nm, hnm⟩ := parseLoop_err_of_bad l [] 0 [] hbad
    refine ⟨nm, ?_⟩
    rw [parseSK_some l, hnm]
  · intro l hall hex
    obtain ⟨m, lt2, lk2, hok⟩ := parseLoop_ok_of_good l [] 0 [] hall
    have hm : m = kvOf l := by
      rw [parseLoop_ok_acc l [] 0 [] hok, List.nil_append]
    have hne : m ≠ [] := by
      obtain ⟨p, hmem, hp⟩ := hex
      intro hnil
      have hin : (suffixOf p.1, p.2) ∈ kvOf l :=
        List.mem_filterMap.mpr ⟨p, hmem, by rw [if_pos hp]⟩
      rw [← hm, hnil] at hin
      cases hin
    refine ⟨m, lk2, ?_⟩
    rw [parseSK_some l, hok]
    show (if m.isEmpty = true then Except.error ParseErr.noKeys
      else Except.ok (m, lk2)) = Except.ok (m, lk2)
    rw [isEmpty_false_of_ne_nil hne]
    rw [if_neg (fun h => Bool.noConfusion h)]

/-- Witness for C9: the success branch applied to a record mixing a valid
signing-key entry with foreign data. -/
theorem c9_witness :
    ((∀ p ∈ dataC9, hasKeyPfx p.1 = true → (parseKeyTimestamp p.1).isOk = true) ∧
      (∃ p ∈ dataC9, hasKeyPfx p.1 = true)) ∧
    (∃ m lk, parseSigningKeysFromSecret (some dataC9) = .ok (m, lk)) :=
  ⟨⟨by decide, by decide⟩,
    c9_parse_error_taxonomy.2.2 dataC9 (by decide) (by decide)⟩

/-- C10: when every prefixed entry decodes to a timestamp at most 0, the
parse succeeds with a non-empty key map and an empty-string latest kid
(the running maximum is seeded with 0 and only strictly greater
timestamps replace it), and a subsequent `UpdateKeys` with that result is
rejected because the empty latest kid is not in the key map. -/
theorem c10_nonpositive_latest (l : List (List Char × Bytes)) (s : Signer) (now : Int)
    (hall : ∀ p ∈ l, hasKeyPfx p.1 = true → ∃ ts, parseKeyTimestamp p.1 = .ok ts ∧ ts ≤ 0)
    (hex : ∃ p ∈ l, hasKeyPfx p.1 = true) :
    ∃ m, parseSigningKeysFromSecret (some l) = .ok (m, []) ∧ m ≠ [] ∧
      updateKeys s m [] now = .error .latestKidNotFound := by
  have hloop := parseLoop_nonpos l [] hall
  rw [List.nil_append] at hloop
  have hkv_ne : kvOf l ≠ [] := by
    obtain ⟨p, hmem, hp⟩ := hex
    intro hnil
    have hin : (suffixOf p.1, p.2) ∈ kvOf l :=
      List.mem_filterMap.mpr ⟨p, hmem, by rw [if_pos hp]⟩
    rw [hnil] at hin
    cases hin
  refine ⟨kvOf l, ?_, hkv_ne, ?_⟩
  · rw [parseSK_some l, hloop]
    show (if (kvOf l).isEmpty = true then Except.error ParseErr.noKeys
      else Except.ok (kvOf l, [])) = Except.ok (kvOf l, [])
    rw [isEmpty_false_of_ne_nil hkv_ne]
    rw [if_neg (fun h => Bool.noConfusion h)]
  · have hallok : ∀ p ∈ l, hasKeyPfx p.1 = true → (parseKeyTimestamp p.1).isOk = true := by
      intro p hp hpfx
      obtain ⟨ts, hts, _⟩ := hall p hp hpfx
      rw [hts]
      rfl
    have hkids : ([] : List Char) ∉ (kvOf l).map Prod.fst := by
      intro hmem
      obtain ⟨q, hq, hq1⟩ := List.mem_map.mp hmem
      have hps := kvOf_kid_parses hallok q hq
      rw [hq1] at hps
      rw [show parseDecInt ([] : List Char) = none from rfl] at hps
      exact Bool.noConfusion hps
    have hlknone : look ([] : List Char) (kvOf l) = none := look_eq_none_iff.mpr hkids
    unfold updateKeys
    rw [isEmpty_false_of_ne_nil hkv_ne]
    rw [if_neg (fun h => Bool.noConfusion h)]
    rw [hlknone]
    rw [if_pos (show (none : Option Bytes).isNone = true from rfl)]

/-- Witness for C10: the all-nonpositive record with the single entry
`jwt-signing-key-0`. -/
theorem c10_witness :
    ((∀ p ∈ dataC10, hasKeyPfx p.1 = true →
        ∃ ts, parseKeyTimestamp p.1 = .ok ts ∧ ts ≤ 0) ∧
      (∃ p ∈ dataC10, hasKeyPfx p.1 = true)) ∧
    (∃ m, parseSigningKeysFromSecret (some dataC10) = .ok (m, []) ∧ m ≠ [] ∧
      updateKeys (newStandardSigner "iss" "aud" 3600 5) m [] 7 =
        .error .latestKidNotFound) :=
  ⟨⟨by
      intro p hp _
      have hp2 : p ∈ [((str "jwt-signing-key-0", [1]) : List Char × Bytes)] := hp
      rw [List.mem_singleton] at hp2
      subst hp2
      exact ⟨0, by decide, by decide⟩,
    by decide⟩,
    c10_nonpositive_latest dataC10 (newStandardSigner "iss" "aud" 3600 5) 7
      (by
        intro p hp _
        have hp2 : p ∈ [((str "jwt-signing-key-0", [1]) : List Char × Bytes)] := hp
        rw [List.mem_singleton] at hp2
        subst hp2
        exact ⟨0, by decide, by decide⟩)
      (by decide)⟩

/-- C8 counterexample: a record mapping `jwt-signing-key-1000` to 4 bytes
is parsed and admitted without error — no 48-byte length check happens on
admission. -/
theorem c8_counterexample :
    parseSigningKeysFromSecret (some dataC8) =
      .ok ([(str "1000", [107, 101, 121, 49])], str "1000") ∧
    updateKeys (newStandardSigner "iss" "aud" 3600 5)
        [(str "1000", [107, 101, 121, 49])] (str "1000") 0 = .ok s2C8 ∧
    look (str "1000") s2C8.signingKeys = some [107, 101, 121, 49] ∧
    ([107, 101, 121, 49] : Bytes).length = 4 :=
  ⟨by decide, by decide, by decide, by decide⟩

/-- C8 amended: admission never inspects key length — the parse maps each
kid to the record's bytes verbatim and `UpdateKeys` installs the map
verbatim, whatever the byte lengths (only the rotator's key generator is
specified to produce 48-byte keys). -/
theorem c8_no_length_check :
    (∀ (d m : List (List Char × Bytes)) (lk : List Char),
      parseSigningKeysFromSecret (some d) = .ok (m, lk) →
      ∀ kid key, look kid m = some key →
        ∃ name, (name, key) ∈ d ∧ hasKeyPfx name = true ∧ suffixOf name = kid) ∧
    (∀ (s : Signer) (keys : List (List Char × Bytes)) (latest : List Char)
      (now : Int) (s2 : Signer),
      updateKeys s keys latest now = .ok s2 → s2.signingKeys = keys) := by
  constructor
  · intro d m lk h kid key hlk
    have hm : m = kvOf d := by
      rw [parseSK_some d] at h
      cases hloop : parseLoop d [] 0 [] with
      | error e =>
        rw [hloop] at h
        exact Except.noConfusion h
      | ok r =>
        obtain ⟨m0, lt2, lk2⟩ := r
        rw [hloop] at h
        have h2 : (if m0.isEmpty = true then Except.error ParseErr.noKeys
          else Except.ok (m0, lk2)) = Except.ok (m, lk) := h
        by_cases hemp : m0.isEmpty = true
        · rw [if_pos hemp] at h2
          exact Except.noConfusion h2
        · rw [if_neg hemp] at h2
          injection h2 with h2
          injection h2 with h1 h3
          rw [← h1, parseLoop_ok_acc d [] 0 [] hloop, List.nil_append]
    rw [hm] at hlk
    obtain ⟨p, hmem, hif⟩ := List.mem_filterMap.mp (look_eq_some_mem hlk)
    by_cases hp : hasKeyPfx p.1 = true
    · rw [if_pos hp] at hif
      injection hif with hif
      injection hif with hif1 hif2
      refine ⟨p.1, ?_, hp, hif1⟩
      rw [← hif2]
      exact (show ((p.1, p.2) : List Char × Bytes) = p from rfl) ▸ hmem
    · rw [if_neg hp] at hif
      cases hif
  · intro s keys latest now s2 h
    unfold updateKeys at h
    by_cases h1 : keys.isEmpty = true
    · rw [if_pos h1] at h
      exact Except.noConfusion h
    · rw [if_neg h1] at h
      by_cases h2 : (look latest keys).isNone = true
      · rw [if_pos h2] at h
        exact Except.noConfusion h
      · rw [if_neg h2] at h
        injection h with h
        rw [← h]

/-- Witness for C8: the verbatim-admission theorem applied to the 4-byte
record. -/
theorem c8_witness :
    (parseSigningKeysFromSecret (some dataC8) =
        .ok ([(str "1000", [107, 101, 121, 49])], str "1000") ∧
      look (str "1000") [(str "1000", [107, 101, 121, 49])] =
        some [107, 101, 121, 49]) ∧
    (∃ name, (name, ([107, 101, 121, 49] : Bytes)) ∈ dataC8 ∧
      hasKeyPfx name = true ∧ suffixOf name = str "1000") :=
  ⟨⟨by decide, by decide⟩,
    c8_no_length_check.1 dataC8 [(str "1000", [107, 101, 121, 49])] (str "1000")
      (by decide) (str "1000") [107, 101, 121, 49] (by decide)⟩

/-! ### Rotation support lemmas -/

theorem parsedKeys_cons_ok {name : List Char} {value : Bytes}
    {rest : List (List Char × Bytes)} {ts : Int}
    (hp : hasKeyPfx name = true) (hpt : parseKeyTimestamp name = .ok ts) :
    parsedKeys ((name, value) :: rest) = ⟨name, ts, value⟩ :: parsedKeys rest :=
  List.filterMap_cons_some (by rw [if_pos hp, hpt])

theorem parsedKeys_cons_err {name : List Char} {value : Bytes}
    {rest : List (List Char × Bytes)} {e : KeyNameErr}
    (hp : hasKeyPfx name = true) (hpt : parseKeyTimestamp name = .error e) :
    parsedKeys ((name, value) :: rest) = parsedKeys rest :=
  List.filterMap_cons_none (by rw [if_pos hp, hpt])

theorem parsedKeys_cons_nopfx {name : List Char} {value : Bytes}
    {rest : List (List Char × Bytes)} (hp : ¬ hasKeyPfx name = true) :
    parsedKeys ((name, value) :: rest) = parsedKeys rest :=
  List.filterMap_cons_none (by rw [if_neg hp])

theorem mem_parsedKeys_spec {data : List (List Char × Bytes)} {e : KeyEntry}
    (h : e ∈ parsedKeys data) :
    (e.name, e.value) ∈ data ∧ hasKeyPfx e.name = true ∧
      parseKeyTimestamp e.name = .ok e.ts := by
  obtain ⟨p, hmem, hif⟩ := List.mem_filterMap.mp h
  by_cases hp : hasKeyPfx p.1 = true
  · rw [if_pos hp] at hif
    cases hpt : parseKeyTimestamp p.1 with
    | error er =>
      rw [hpt] at hif
      cases hif
    | ok ts =>
      rw [hpt] at hif
      injection hif with hif
      rw [← hif]
      exact ⟨(show ((p.1, p.2) : List Char × Bytes) = p from rfl) ▸ hmem, hp, hpt⟩
  · rw [if_neg hp] at hif
    cases hif

theorem parsedKeys_names_sublist : ∀ (data : List (List Char × Bytes)),
    ((parsedKeys data).map KeyEntry.name).Sublist (data.map Prod.fst)
  | [] => List.Sublist.refl []
  | (name, value) :: rest => by
    by_cases hp : hasKeyPfx name = true
    · cases hpt : parseKeyTimestamp name with
      | ok ts =>
        rw [parsedKeys_cons_ok hp hpt, List.map_cons, List.map_cons]
        exact List.Sublist.cons₂ name (parsedKeys_names_sublist rest)
      | error e =>
        rw [parsedKeys_cons_err hp hpt, List.map_cons]
        exact List.Sublist.cons name (parsedKeys_names_sublist rest)
    · rw [parsedKeys_cons_nopfx hp, List.map_cons]
      exact List.Sublist.cons name (parsedKeys_names_sublist rest)

theorem parsedKeys_single_build {now : Int} (h0 : 0 ≤ now) (hmax : now ≤ int64Max)
    (newKey : Bytes) :
    parsedKeys [(buildKeyName now, newKey)] = [⟨buildKeyName now, now, newKey⟩] := by
  unfold parsedKeys
  rw [List.filterMap_cons_some
    (by rw [if_pos (hasKeyPfx_build now), parseKeyTimestamp_build h0 hmax])]
  rfl

theorem parsedKeys_filter_names (R : List (List Char)) :
    ∀ (data : List (List Char × Bytes)),
      parsedKeys (data.filter (fun p => decide (p.1 ∉ R))) =
        (parsedKeys data).filter (fun e => decide (e.name ∉ R))
  | [] => rfl
  | (name, value) :: rest => by
    by_cases hR : name ∈ R
    · have hc : (decide (((name, value) : List Char × Bytes).1 ∉ R)) = false := by
        simp only [decide_eq_false_iff_not]
        exact not_not_intro hR
      rw [List.filter_cons, if_neg (by rw [hc]; exact fun hh => Bool.noConfusion hh)]
      rw [parsedKeys_filter_names R rest]
      by_cases hp : hasKeyPfx name = true
      · cases hpt : parseKeyTimestamp name with
        | ok ts =>
          rw [parsedKeys_cons_ok hp hpt, List.filter_cons,
            if_neg (by
              rw [show (decide ((⟨name, ts, value⟩ : KeyEntry).name ∉ R)) = false by
                simp only [decide_eq_false_iff_not]
                exact not_not_intro hR]
              exact fun hh => Bool.noConfusion hh)]
        | error e =>
          rw [parsedKeys_cons_err hp hpt]
      · rw [parsedKeys_cons_nopfx hp]
    · have hc : (decide (((name, value) : List Char × Bytes).1 ∉ R)) = true := by
        simp only [decide_eq_true_eq]
        exact hR
      rw [List.filter_cons, if_pos hc]
      by_cases hp : hasKeyPfx name = true
      · cases hpt : parseKeyTimestamp name with
        | ok ts =>
          rw [parsedKeys_cons_ok hp hpt, parsedKeys_cons_ok hp hpt, List.filter_cons,
            if_pos (by
              simp only [decide_eq_true_eq]
              exact hR)]
          rw [parsedKeys_filter_names R rest]
        | error e =>
          rw [parsedKeys_cons_err hp hpt, parsedKeys_cons_err hp hpt]
          exact parsedKeys_filter_names R rest
      · rw [parsedKeys_cons_nopfx hp, parsedKeys_cons_nopfx hp]
        exact parsedKeys_filter_names R rest

theorem parsedKeys_ts_of_name_build {data : List (List Char × Bytes)}
    {e : KeyEntry} {now : Int} (h0 : 0 ≤ now) (hmax : now ≤ int64Max)
    (he : e ∈ parsedKeys data) (hname : e.name = buildKeyName now) : e.ts = now := by
  obtain ⟨_, _, hpt⟩ := mem_parsedKeys_spec he
  rw [hname, parseKeyTimestamp_build h0 hmax] at hpt
  injection hpt with hpt
  exact hpt.symm

/-- C6 amended: a successful rotation (retention at least 1, no clock
collision) on a record whose valid timestamps are pairwise distinct and
all strictly older than `now` leaves exactly
`min (previousValidKeys + 1) numberOfKeys` valid entries, the newly
generated key among them, and every retained valid entry strictly newer
than every pruned one. -/
theorem c6_rotate_retention (data : List (List Char × Bytes)) (k now : Int)
    (newKey : Bytes)
    (hk : 1 ≤ k)
    (hnd : (data.map Prod.fst).Nodup)
    (hts : ((parsedKeys data).map KeyEntry.ts).Nodup)
    (hlt : ∀ e ∈ parsedKeys data, e.ts < now)
    (h0 : 0 ≤ now) (hmax : now ≤ int64Max) :
    ∃ post, rotateSecret data k now newKey = .ok post ∧
      ((parsedKeys post).length : Int) = min (((parsedKeys data).length : Int) + 1) k ∧
      buildKeyName now ∈ post.map Prod.fst ∧
      (∀ e ∈ parsedKeys post, ∀ q ∈ parsedKeys data,
        q.name ∉ post.map Prod.fst → q.ts < e.ts) := by
  have hnocol : (List.insertionSort entLE (parsedKeys data)).any
      (fun kk => decide (kk.name = buildKeyName now)) = false := by
    rw [List.any_eq_false]
    intro x hx hdec
    have hx2 : x ∈ parsedKeys data := (List.mem_insertionSort entLE).mp hx
    have hname : x.name = buildKeyName now := of_decide_eq_true hdec
    have hxts := parsedKeys_ts_of_name_build h0 hmax hx2 hname
    have hxlt := hlt x hx2
    omega
  have hKperm : List.Perm (List.insertionSort entLE (parsedKeys data)) (parsedKeys data) :=
    List.perm_insertionSort entLE _
  have hAperm : List.Perm (rotKeysAll data now newKey)
      (parsedKeys data ++ [⟨buildKeyName now, now, newKey⟩]) := by
    unfold rotKeysAll
    exact (List.perm_insertionSort entLE _).trans (hKperm.append_right _)
  have hSlen : (rotKeysAll data now newKey).length = (parsedKeys data).length + 1 := by
    rw [hAperm.length_eq, List.length_append, List.length_singleton]
  have hsorted : List.Sorted entLE (rotKeysAll data now newKey) :=
    List.sorted_insertionSort entLE _
  have hPplus : parsedKeys (data ++ [(buildKeyName now, newKey)]) =
      parsedKeys data ++ [⟨buildKeyName now, now, newKey⟩] := by
    rw [show parsedKeys (data ++ [(buildKeyName now, newKey)]) =
      parsedKeys data ++ parsedKeys [(buildKeyName now, newKey)] from
      List.filterMap_append _ _ _]
    rw [parsedKeys_single_build h0 hmax newKey]
  have hnn : buildKeyName now ∉ data.map Prod.fst := by
    intro hmem
    obtain ⟨p, hp, hp1⟩ := List.mem_map.mp hmem
    have hppfx : hasKeyPfx p.1 = true := by
      rw [hp1]
      exact hasKeyPfx_build now
    have hpt : parseKeyTimestamp p.1 = .ok now := by
      rw [hp1]
      exact parseKeyTimestamp_build h0 hmax
    have he : (⟨p.1, now, p.2⟩ : KeyEntry) ∈ parsedKeys data :=
      List.mem_filterMap.mpr ⟨p, hp, by rw [if_pos hppfx, hpt]⟩
    have h2 : now < now := hlt _ he
    omega
  have hnnP : buildKeyName now ∉ (parsedKeys data).map KeyEntry.name :=
    fun hmem => hnn ((parsedKeys_names_sublist data).subset hmem)
  have hndP : ((parsedKeys data).map KeyEntry.name).Nodup :=
    (parsedKeys_names_sublist data).nodup hnd
  have hnodA : ((rotKeysAll data now newKey).map KeyEntry.name).Nodup := by
    apply ((hAperm.map KeyEntry.name).symm).nodup
    rw [List.map_append, List.map_singleton]
    exact List.nodup_append.mpr ⟨hndP, List.nodup_singleton _,
      fun a ha hb => hnnP
        ((show a = buildKeyName now from List.mem_singleton.mp hb) ▸ ha)⟩
  have htsnn : now ∉ (parsedKeys data).map KeyEntry.ts := by
    intro hmem
    obtain ⟨e, he, he1⟩ := List.mem_map.mp hmem
    have := hlt e he
    omega
  have htsA : ((rotKeysAll data now newKey).map KeyEntry.ts).Nodup := by
    apply ((hAperm.map KeyEntry.ts).symm).nodup
    rw [List.map_append, List.map_singleton]
    exact List.nodup_append.mpr ⟨hts, List.nodup_singleton _,
      fun a ha hb => htsnn ((show a = now from List.mem_singleton.mp hb) ▸ ha)⟩
  unfold rotateSecret
  rw [if_neg (by omega : ¬ k < 1)]
  rw [hnocol]
  rw [if_neg (fun hh => Bool.noConfusion hh)]
  by_cases hprune : k < ((rotKeysAll data now newKey).length : Int)
  · rw [if_pos hprune]
    have hRdef : rotRemoveNames data k now newKey =
        ((rotKeysAll data now newKey).take
          ((rotKeysAll data now newKey).length - k.toNat)).map KeyEntry.name := rfl
    have hSRK : (rotKeysAll data now newKey).take
          ((rotKeysAll data now newKey).length - k.toNat) ++
        (rotKeysAll data now newKey).drop
          ((rotKeysAll data now newKey).length - k.toNat) =
        rotKeysAll data now newKey :=
      List.take_append_drop _ _
    have hcross : ∀ r ∈ (rotKeysAll data now newKey).take
          ((rotKeysAll data now newKey).length - k.toNat),
        ∀ e ∈ (rotKeysAll data now newKey).drop
          ((rotKeysAll data now newKey).length - k.toNat), entLE r e := by
      have hs2 := hsorted
      rw [← hSRK] at hs2
      exact (List.pairwise_append.mp hs2).2.2
    have hdisj_names : ∀ a ∈ ((rotKeysAll data now newKey).take
          ((rotKeysAll data now newKey).length - k.toNat)).map KeyEntry.name,
        a ∉ ((rotKeysAll data now newKey).drop
          ((rotKeysAll data now newKey).length - k.toNat)).map KeyEntry.name := by
      have h2 := hnodA
      rw [← hSRK, List.map_append] at h2
      exact fun a ha hb => (List.nodup_append.mp h2).2.2 ha hb
    have hdisj_ts : ∀ a ∈ ((rotKeysAll data now newKey).take
          ((rotKeysAll data now newKey).length - k.toNat)).map KeyEntry.ts,
        a ∉ ((rotKeysAll data now newKey).drop
          ((rotKeysAll data now newKey).length - k.toNat)).map KeyEntry.ts := by
      have h2 := htsA
      rw [← hSRK, List.map_append] at h2
      exact fun a ha hb => (List.nodup_append.mp h2).2.2 ha hb
    have hKlen : ((rotKeysAll data now newKey).drop
        ((rotKeysAll data now newKey).length - k.toNat)).length = k.toNat := by
      rw [List.length_drop]
      omega
    have hfilterS : (rotKeysAll data now newKey).filter
        (fun e => decide (e.name ∉ rotRemoveNames data k now newKey)) =
        (rotKeysAll data now newKey).drop
          ((rotKeysAll data now newKey).length - k.toNat) := by
      conv =>
        left
        rw [← hSRK]
      rw [List.filter_append]
      have h1 : ((rotKeysAll data now newKey).take
          ((rotKeysAll data now newKey).length - k.toNat)).filter
          (fun e => decide (e.name ∉ rotRemoveNames data k now newKey)) = [] := by
        apply List.filter_eq_nil_iff.mpr
        intro r hr hdec
        exact (of_decide_eq_true hdec)
          (by rw [hRdef]; exact List.mem_map.mpr ⟨r, hr, rfl⟩)
      have h2 : ((rotKeysAll data now newKey).drop
          ((rotKeysAll data now newKey).length - k.toNat)).filter
          (fun e => decide (e.name ∉ rotRemoveNames data k now newKey)) =
          (rotKeysAll data now newKey).drop
            ((rotKeysAll data now newKey).length - k.toNat) := by
        apply List.filter_eq_self.mpr
        intro e he
        apply decide_eq_true
        intro hmem
        rw [hRdef] at hmem
        exact hdisj_names e.name hmem (List.mem_map.mpr ⟨e, he, rfl⟩)
      rw [h1, h2, List.nil_append]
    have hpostEq : parsedKeys ((data ++ [(buildKeyName now, newKey)]).filter
        (fun p => decide (p.1 ∉ rotRemoveNames data k now newKey))) =
        (parsedKeys data ++ [(⟨buildKeyName now, now, newKey⟩ : KeyEntry)]).filter
          (fun e => decide (e.name ∉ rotRemoveNames data k now newKey)) := by
      rw [parsedKeys_filter_names, hPplus]
    have hpostK : List.Perm (parsedKeys ((data ++ [(buildKeyName now, newKey)]).filter
        (fun p => decide (p.1 ∉ rotRemoveNames data k now newKey))))
        ((rotKeysAll data now newKey).drop
          ((rotKeysAll data now newKey).length - k.toNat)) := by
      rw [hpostEq, ← hfilterS]
      exact (hAperm.filter _).symm
    have hnewS : (⟨buildKeyName now, now, newKey⟩ : KeyEntry) ∈
        rotKeysAll data now newKey :=
      hAperm.mem_iff.mpr (List.mem_append.mpr (Or.inr (List.mem_singleton.mpr rfl)))
    have hnewK : (⟨buildKeyName now, now, newKey⟩ : KeyEntry) ∈
        (rotKeysAll data now newKey).drop
          ((rotKeysAll data now newKey).length - k.toNat) := by
      have hnewS2 := hnewS
      rw [← hSRK] at hnewS2
      rcases List.mem_append.mp hnewS2 with hR | hK
      · exfalso
        have hKne : (rotKeysAll data now newKey).drop
            ((rotKeysAll data now newKey).length - k.toNat) ≠ [] := by
          intro hnil
          have := hKlen
          rw [hnil] at this
          simp only [List.length_nil] at this
          omega
        obtain ⟨e0, he0⟩ := List.exists_mem_of_ne_nil _ hKne
        have hle : now ≤ e0.ts := hcross _ hR e0 he0
        have he0S : e0 ∈ rotKeysAll data now newKey := by
          rw [← hSRK]
          exact List.mem_append.mpr (Or.inr he0)
        rcases List.mem_append.mp (hAperm.mem_iff.mp he0S) with heP | heNew
        · have := hlt e0 heP
          omega
        · have he0eq : e0 = ⟨buildKeyName now, now, newKey⟩ := List.mem_singleton.mp heNew
          rw [he0eq] at he0
          exact hdisj_names (buildKeyName now)
            (List.mem_map.mpr ⟨_, hR, rfl⟩) (List.mem_map.mpr ⟨_, he0, rfl⟩)
      · exact hK
    have hnewNotR : buildKeyName now ∉ rotRemoveNames data k now newKey := by
      rw [hRdef]
      intro hmem
      exact hdisj_names (buildKeyName now) hmem (List.mem_map.mpr ⟨_, hnewK, rfl⟩)
    refine ⟨_, rfl, ?_, ?_, ?_⟩
    · rw [hpostK.length_eq, hKlen]
      omega
    · apply List.mem_map.mpr
      refine ⟨(buildKeyName now, newKey), ?_, rfl⟩
      apply List.mem_filter.mpr
      exact ⟨List.mem_append.mpr (Or.inr (List.mem_singleton.mpr rfl)),
        decide_eq_true hnewNotR⟩
    · intro e he q hq hqnot
      have heK : e ∈ (rotKeysAll data now newKey).drop
          ((rotKeysAll data now newKey).length - k.toNat) :=
        hpostK.mem_iff.mp he
      have hqS : q ∈ rotKeysAll data now newKey :=
        hAperm.mem_iff.mpr (List.mem_append.mpr (Or.inl hq))
      have hqS2 := hqS
      rw [← hSRK] at hqS2
      rcases List.mem_append.mp hqS2 with hqR | hqK
      · have hle : q.ts ≤ e.ts := hcross _ hqR e heK
        have hne : q.ts ≠ e.ts := fun hts2 =>
          hdisj_ts q.ts (List.mem_map.mpr ⟨q, hqR, rfl⟩)
            (by rw [hts2]; exact List.mem_map.mpr ⟨e, heK, rfl⟩)
        omega
      · exfalso
        apply hqnot
        obtain ⟨hqmem, _, _⟩ := mem_parsedKeys_spec hq
        apply List.mem_map.mpr
        refine ⟨(q.name, q.value), ?_, rfl⟩
        apply List.mem_filter.mpr
        refine ⟨List.mem_append.mpr (Or.inl hqmem), decide_eq_true ?_⟩
        rw [hRdef]
        intro hmem
        exact hdisj_names q.name hmem (List.mem_map.mpr ⟨q, hqK, rfl⟩)
  · rw [if_neg hprune]
    refine ⟨_, rfl, ?_, ?_, ?_⟩
    · rw [hPplus, List.length_append, List.length_singleton]
      have hcast : ((rotKeysAll data now newKey).length : Int) =
          ((parsedKeys data).length : Int) + 1 := by
        rw [hSlen]
        push_cast
        ring
      rw [hcast] at hprune
      push_cast
      omega
    · rw [List.map_append, List.map_singleton]
      exact List.mem_append.mpr (Or.inr (List.mem_singleton.mpr rfl))
    · intro e he q hq hqnot
      exfalso
      apply hqnot
      obtain ⟨hqmem, _, _⟩ := mem_parsedKeys_spec hq
      rw [List.map_append]
      exact List.mem_append.mpr (Or.inl (List.mem_map.mpr ⟨(q.name, q.value), hqmem, rfl⟩))

/-- C6 counterexample: rotating a record holding one valid key stamped in
the future (timestamp 9000) at instant 1000 with retention 1 succeeds and
retains exactly `min (1 + 1) 1 = 1` valid entry, but the retained entry is
the pre-existing future key: the newly generated key
(`jwt-signing-key-1000`) is absent from the record afterwards, refuting
"the newly generated key included". -/
theorem c6_counterexample :
    rotateSecret dataC6 1 1000 [8] = .ok dataC6 ∧
    buildKeyName 1000 ∉ dataC6.map Prod.fst ∧
    (parsedKeys dataC6).length = 1 ∧
    min (((parsedKeys dataC6).length : Int) + 1) 1 = 1 :=
  ⟨by decide, by decide, by decide, by decide⟩

/-- Witness for C6: the amended retention theorem applied to a one-key
record rotated at instant 9 with retention 2. -/
theorem c6_witness :
    ((1 : Int) ≤ 2 ∧ (dataC6w.map Prod.fst).Nodup ∧
      ((parsedKeys dataC6w).map KeyEntry.ts).Nodup ∧
      (∀ e ∈ parsedKeys dataC6w, e.ts < 9) ∧ (0 : Int) ≤ 9 ∧ (9 : Int) ≤ int64Max) ∧
    (∃ post, rotateSecret dataC6w 2 9 [2] = .ok post ∧
      ((parsedKeys post).length : Int) = min (((parsedKeys dataC6w).length : Int) + 1) 2 ∧
      buildKeyName 9 ∈ post.map Prod.fst ∧
      (∀ e ∈ parsedKeys post, ∀ q ∈ parsedKeys dataC6w,
        q.name ∉ post.map Prod.fst → q.ts < e.ts)) :=
  ⟨⟨by decide, by decide, by decide, by decide, by decide, by decide⟩,
    c6_rotate_retention dataC6w 2 9 [2] (by decide) (by decide) (by decide)
      (by decide) (by decide) (by decide)⟩

end JK
